import Mathlib

/-!
Verification of the task-graph synchronization engine.

This file gives a shallow embedding, in Lean, of the core functions of the
task-graph synchronization engine (error categorization and retry policy,
blocked-state resolution, label computation, artifact download validation,
hierarchy-depth computation, and the two-pass issue sync engine), together
with theorems settling the specification claims about them.

Remote API calls are modelled by explicit oracles (pure functions giving the
result of each call), and performed remote mutations are modelled as emitted
action lists.  Third-party library calls (SHA-256, JSON.parse, YAML
serialization) are abstracted as function parameters; everything else is
translated directly from the source.
-/

namespace TaskSync

/-- JS `String.prototype.includes`: substring containment test. -/
def strContains (s pat : String) : Bool := decide (pat.data <:+: s.data)

/-! ## Resilience layer (src/src/main.ts)

`categorizeError` inspects a thrown JS error value.  `ErrInfo` models the
fields of such a value that the function reads: HTTP `status`, network error
`code`, `message` (with `toString()` fallback `strRepr` for the JS
`error.message || error.toString()`), and the two rate-limit headers, which
the source reads as strings and parses with `parseInt`; they are modelled
here as already-parsed optional integers. -/

structure ErrInfo where
  status : Option Int := none
  code : Option String := none
  message : String := ""
  strRepr : String := ""
  retryAfterHeader : Option Int := none
  rateLimitResetHeader : Option Int := none
deriving DecidableEq

inductive ErrorType where
  | rate_limit
  | network
  | validation
  | authentication
  | unknown
deriving DecidableEq

structure ErrorCategory where
  type : ErrorType
  retryable : Bool
  retryDelay : Int
  maxRetries : Nat
deriving DecidableEq

/-- `error.message || error.toString()`. -/
def errorMessage (e : ErrInfo) : String :=
  if e.message = "" then e.strRepr else e.message

/-- `calculateRateLimitDelay` from src/src/main.ts.  `nowMs` models
`Date.now()` and `retryQueueLength` models `this.retryQueue.length`. -/
def calculateRateLimitDelay (e : ErrInfo) (nowMs : Int) (retryQueueLength : Nat) : Int :=
  match e.retryAfterHeader with
  | some v => v * 1000
  | none =>
    match e.rateLimitResetHeader with
    | some r => max 1000 (r * 1000 - nowMs)
    | none => min 300000 (1000 * (2 : Int) ^ retryQueueLength)

/-- The network error-code test of the second branch of `categorizeError`. -/
def isNetworkCode (c : Option String) : Bool :=
  decide (c = some "ECONNRESET" ∨ c = some "ENOTFOUND" ∨ c = some "ETIMEDOUT")

/-- JS `error.status >= 500` (false when `status` is undefined). -/
def statusAtLeast500 : Option Int → Bool
  | some v => decide (500 ≤ v)
  | none => false

/-- `categorizeError` from src/src/main.ts, translated branch by branch. -/
def categorizeError (nowMs : Int) (retryQueueLength : Nat) (e : ErrInfo) : ErrorCategory :=
  let msg := errorMessage e
  if e.status = some 403 ∧ (strContains msg "rate limit" = true ∨
      strContains msg "API rate limit" = true ∨
      strContains msg "secondary rate limit" = true) then
    ⟨.rate_limit, true, calculateRateLimitDelay e nowMs retryQueueLength, 10⟩
  else if isNetworkCode e.code = true ∨ statusAtLeast500 e.status = true then
    ⟨.network, true, 1000, 5⟩
  else if e.status = some 422 ∨ strContains msg "validation" = true then
    ⟨.validation, false, 0, 0⟩
  else if e.status = some 401 ∨ e.status = some 403 then
    ⟨.authentication, false, 0, 0⟩
  else
    ⟨.unknown, true, 2000, 3⟩

/-- The retry loop of `executeWithRetry`: `attempt` is the current attempt
index, `remaining` the number of retries still allowed
(`maxRetries - attempt`).  Sleeping is not modelled (time-free embedding). -/
def retryGo {α : Type} (op : Nat → Except ErrInfo α) (nowMs : Int) (q : Nat) :
    Nat → Nat → Except ErrInfo α
  | attempt, remaining =>
    match op attempt with
    | .ok a => .ok a
    | .error e =>
      match remaining with
      | 0 => .error e
      | r + 1 =>
        if (categorizeError nowMs q e).retryable then retryGo op nowMs q (attempt + 1) r
        else .error e

/-- `executeWithRetry` from src/src/main.ts: run `op`, retrying while the
categorized error is retryable and fewer than `maxRetries` retries have been
used; on exhaustion the last error is re-thrown unmodified. -/
def executeWithRetry {α : Type} (op : Nat → Except ErrInfo α) (nowMs : Int) (q : Nat)
    (maxRetries : Nat) : Except ErrInfo α :=
  retryGo op nowMs q 0 maxRetries

/-! ## Claims C5 and C6 -/

/-- Concrete error with HTTP status 422 that also carries a network error
code, as a JS error from a failed HTTP library call may. -/
def err422Network : ErrInfo :=
  { status := some 422, code := some "ECONNRESET", message := "Validation failed" }

/-- C5 (counterexample): the claim says every error with HTTP status 422 is
mapped to category `validation` with `retryable = false` and
`maxRetries = 0`; but an error with status 422 whose `code` is `ECONNRESET`
hits the network branch first and is categorized `network`, retryable, with
`maxRetries = 5`. -/
theorem C5_categorizeError_cex :
    err422Network.status = some 422 ∧
    ¬ ((categorizeError 0 0 err422Network).type = ErrorType.validation ∧
       (categorizeError 0 0 err422Network).retryable = false ∧
       (categorizeError 0 0 err422Network).maxRetries = 0) ∧
    (categorizeError 0 0 err422Network).type = ErrorType.network ∧
    (categorizeError 0 0 err422Network).retryable = true ∧
    (categorizeError 0 0 err422Network).maxRetries = 5 := by
  decide

/-- C5 (amended): every error with HTTP status 403 whose message contains a
rate-limit phrase is categorized `rate_limit`, retryable, max 10 retries;
and every error with HTTP status 422 whose error code is not one of the
network error codes (ECONNRESET / ENOTFOUND / ETIMEDOUT) is categorized
`validation`, non-retryable, max 0 retries. -/
theorem C5_categorizeError_amended (nowMs : Int) (q : Nat) (e : ErrInfo) :
    (e.status = some 403 →
      (strContains (errorMessage e) "rate limit" = true ∨
       strContains (errorMessage e) "API rate limit" = true ∨
       strContains (errorMessage e) "secondary rate limit" = true) →
      (categorizeError nowMs q e).type = ErrorType.rate_limit ∧
      (categorizeError nowMs q e).retryable = true ∧
      (categorizeError nowMs q e).maxRetries = 10) ∧
    (e.status = some 422 → isNetworkCode e.code = false →
      (categorizeError nowMs q e).type = ErrorType.validation ∧
      (categorizeError nowMs q e).retryable = false ∧
      (categorizeError nowMs q e).maxRetries = 0) := by
  constructor
  · intro h403 hmsg
    simp only [categorizeError]
    rw [if_pos ⟨h403, hmsg⟩]
    exact ⟨rfl, rfl, rfl⟩
  · intro h422 hcode
    have hnot403 : ¬ (e.status = some 403 ∧ (strContains (errorMessage e) "rate limit" = true ∨
        strContains (errorMessage e) "API rate limit" = true ∨
        strContains (errorMessage e) "secondary rate limit" = true)) := by
      rintro ⟨h, -⟩
      rw [h422] at h
      simp at h
    have hnotNet : ¬ (isNetworkCode e.code = true ∨ statusAtLeast500 e.status = true) := by
      rintro (h | h)
      · rw [hcode] at h
        exact Bool.false_ne_true h
      · rw [h422] at h
        simp [statusAtLeast500] at h
    simp only [categorizeError]
    rw [if_neg hnot403, if_neg hnotNet, if_pos (Or.inl h422)]
    exact ⟨rfl, rfl, rfl⟩

/-- C5 witness: the amended theorem applied at two concrete errors. -/
theorem C5_categorizeError_amended_witness :
    ((categorizeError 0 0 { status := some 403, message := "API rate limit exceeded" }).type
        = ErrorType.rate_limit ∧
      (categorizeError 0 0 { status := some 403, message := "API rate limit exceeded" }).retryable
        = true ∧
      (categorizeError 0 0 { status := some 403, message := "API rate limit exceeded" }).maxRetries
        = 10) ∧
    ((categorizeError 0 0 { status := some 422, message := "Validation failed" }).type
        = ErrorType.validation ∧
      (categorizeError 0 0 { status := some 422, message := "Validation failed" }).retryable
        = false ∧
      (categorizeError 0 0 { status := some 422, message := "Validation failed" }).maxRetries
        = 0) := by
  constructor
  · exact (C5_categorizeError_amended 0 0 _).1 rfl (by decide)
  · exact (C5_categorizeError_amended 0 0 _).2 rfl (by decide)

/-- The invalid-artifact error thrown by `restoreFromArtifact`
(`Invalid artifact: <id>`), at the input used by the repository's own test
suite (src/src/config.test.ts). -/
def errInvalidArtifact : ErrInfo := { message := "Invalid artifact: abc123" }

/-- C6 (code bug evidence): the spec's taxonomy (and the repository's own
test and documentation) require invalid-artifact errors to be categorized
`invalid_artifact`, non-retryable, 0 retries; but `ErrorCategory.type` in
src/src/main.ts has no such category at all, and `categorizeError` maps the
error to `unknown`, retryable, with `maxRetries = 3`. -/
theorem C6_invalid_artifact_miscategorized :
    (categorizeError 0 0 errInvalidArtifact).type = ErrorType.unknown ∧
    (categorizeError 0 0 errInvalidArtifact).retryable = true ∧
    (categorizeError 0 0 errInvalidArtifact).maxRetries = 3 := by
  decide

/-! ## Issue labels at creation (create-issues.ts, `createOrGetIssue`)

The label set built for a newly created issue.  `priority` models
`task.priority` (absent or a string); `complexityScore` models the lookup
`task.id in complexityMap ? complexityMap[task.id] : absent`.  The JS guard
`task.id in complexityMap && complexityMap[task.id]` is truthiness: a score
of 0 fails the guard. -/

def issueLabels (priority : Option String) (complexityScore : Option Int) : List String :=
  let base := ["taskmaster"]
  let withPriority :=
    match priority with
    | some p => if p = "" then base else base ++ ["priority:" ++ p]
    | none => base
  match complexityScore with
  | none => withPriority
  | some c =>
    if c = 0 then withPriority
    else if 7 ≤ c then withPriority ++ ["complexity:high"]
    else if 4 ≤ c then withPriority ++ ["complexity:medium"]
    else withPriority ++ ["complexity:low"]
lemma priority_label_ne (p s : String) (h : s.data.head? = some 'c') :
    ¬ ("priority:" ++ p = s) := by
  intro heq
  have hd := congrArg String.data heq
  rw [String.data_append] at hd
  have h2 : ("priority:".data ++ p.data).head? = some 'c' := by rw [hd, h]
  simp [String.data] at h2

/-- The prefix of the label list (fixed tag plus optional priority tag). -/
def priorityLabels (priority : Option String) : List String :=
  match priority with
  | some p => if p = "" then ["taskmaster"] else ["taskmaster", "priority:" ++ p]
  | none => ["taskmaster"]

lemma issueLabels_some (p : Option String) (c : Int) :
    issueLabels p (some c) =
      priorityLabels p ++
        (if c = 0 then []
         else if 7 ≤ c then ["complexity:high"]
         else if 4 ≤ c then ["complexity:medium"]
         else ["complexity:low"]) := by
  simp only [issueLabels, priorityLabels]
  by_cases h0 : c = 0 <;> by_cases h7 : 7 ≤ c <;> by_cases h4 : 4 ≤ c <;>
    cases p <;> simp [h0, h7, h4] <;> split <;> simp

lemma not_mem_priorityLabels (s : String) (hs : s.data.head? = some 'c')
    (p : Option String) : ¬ s ∈ priorityLabels p := by
  intro hmem
  cases p with
  | none =>
    simp [priorityLabels] at hmem
    subst hmem
    exact absurd hs (by decide)
  | some q =>
    by_cases hq : q = ""
    · simp [priorityLabels, hq] at hmem
      subst hmem
      exact absurd hs (by decide)
    · simp [priorityLabels, hq] at hmem
      rcases hmem with hmem | hmem
      · subst hmem
        exact absurd hs (by decide)
      · exact priority_label_ne q s hs hmem.symm

/-- C8 (counterexample): the claim says a task with a known complexity score
below 4 receives `complexity:low`; but for a known score of 0 the truthiness
guard `complexityMap[task.id]` fails and no complexity label is added at
all. -/
theorem C8_complexity_label_cex :
    ¬ ("complexity:low" ∈ issueLabels (some "medium") (some 0)) ∧
    ¬ ("complexity:medium" ∈ issueLabels (some "medium") (some 0)) ∧
    ¬ ("complexity:high" ∈ issueLabels (some "medium") (some 0)) := by
  decide

/-- C8 (amended): for a task created with a known complexity score, the
label set contains `complexity:high` iff the score is at least 7,
`complexity:medium` iff it is at least 4 and below 7, and `complexity:low`
iff it is below 4 and nonzero; a known score of 0 yields no complexity
label (JS truthiness guard).  In particular score 8 yields high, 5 yields
medium, and 2 yields low. -/
theorem C8_complexity_label_amended (p : Option String) (c : Int) :
    (("complexity:high" ∈ issueLabels p (some c)) ↔ 7 ≤ c) ∧
    (("complexity:medium" ∈ issueLabels p (some c)) ↔ 4 ≤ c ∧ c < 7) ∧
    (("complexity:low" ∈ issueLabels p (some c)) ↔ c < 4 ∧ c ≠ 0) ∧
    "complexity:high" ∈ issueLabels (some "high") (some 8) ∧
    "complexity:medium" ∈ issueLabels (some "medium") (some 5) ∧
    "complexity:low" ∈ issueLabels (some "low") (some 2) := by
  have hhigh := not_mem_priorityLabels "complexity:high" (by decide) p
  have hmed := not_mem_priorityLabels "complexity:medium" (by decide) p
  have hlow := not_mem_priorityLabels "complexity:low" (by decide) p
  refine ⟨?_, ?_, ?_, by decide, by decide, by decide⟩
  · rw [issueLabels_some, List.mem_append]
    constructor
    · rintro (hmem | hmem)
      · exact absurd hmem hhigh
      · by_cases h0 : c = 0
        · simp [h0] at hmem
        · rw [if_neg h0] at hmem
          by_cases h7 : 7 ≤ c
          · exact h7
          · rw [if_neg h7] at hmem
            by_cases h4 : 4 ≤ c
            · rw [if_pos h4] at hmem
              exact absurd hmem (by decide)
            · rw [if_neg h4] at hmem
              exact absurd hmem (by decide)
    · intro h7
      right
      have h0 : ¬ (c = 0) := by omega
      rw [if_neg h0, if_pos h7]
      exact List.mem_singleton.mpr rfl
  · rw [issueLabels_some, List.mem_append]
    constructor
    · rintro (hmem | hmem)
      · exact absurd hmem hmed
      · by_cases h0 : c = 0
        · simp [h0] at hmem
        · rw [if_neg h0] at hmem
          by_cases h7 : 7 ≤ c
          · rw [if_pos h7] at hmem
            exact absurd hmem (by decide)
          · rw [if_neg h7] at hmem
            by_cases h4 : 4 ≤ c
            · exact ⟨h4, by omega⟩
            · rw [if_neg h4] at hmem
              exact absurd hmem (by decide)
    · rintro ⟨h4, h7⟩
      right
      have h0 : ¬ (c = 0) := by omega
      have h7n : ¬ (7 ≤ c) := by omega
      rw [if_neg h0, if_neg h7n, if_pos h4]
      exact List.mem_singleton.mpr rfl
  · rw [issueLabels_some, List.mem_append]
    constructor
    · rintro (hmem | hmem)
      · exact absurd hmem hlow
      · by_cases h0 : c = 0
        · simp [h0] at hmem
        · rw [if_neg h0] at hmem
          by_cases h7 : 7 ≤ c
          · rw [if_pos h7] at hmem
            exact absurd hmem (by decide)
          · rw [if_neg h7] at hmem
            by_cases h4 : 4 ≤ c
            · rw [if_pos h4] at hmem
              exact absurd hmem (by decide)
            · exact ⟨by omega, h0⟩
    · rintro ⟨h4, h0⟩
      right
      have h7n : ¬ (7 ≤ c) := by omega
      have h4n : ¬ ((4 : Int) ≤ c) := by omega
      rw [if_neg h0, if_neg h7n, if_neg h4n]
      exact List.mem_singleton.mpr rfl

/-! ## Blocked-state resolver (src/src/issue-hierarchy.ts)

Remote reads are modelled by a fetch oracle `Int → Option FetchedIssue`
(`none` models a thrown API error).  The YAML front-matter parse of the
issue body is abstracted: the oracle returns the parsed `dependencies`
field directly (`none` = field absent or parse failure, which the source
maps to the empty metadata object).  Labels keep the raw wire shape
(string entries or objects with an optional `name`), so that the
`.map(...).filter(Boolean)` extraction can be embedded faithfully. -/

inductive LabelEntry where
  | asString (s : String)
  | asObject (name : Option String)
deriving DecidableEq

/-- `typeof label === 'string' ? label : label.name`. -/
def labelName : LabelEntry → Option String
  | .asString s => some s
  | .asObject n => n

/-- `labels.map(...).filter(Boolean)`: drop undefined and empty names. -/
def currentLabels (ls : List LabelEntry) : List String :=
  (ls.filterMap labelName).filter (fun s => decide (s ≠ ""))

structure FetchedIssue where
  isOpen : Bool
  dependencies : Option (List Int)
  labels : List LabelEntry
deriving DecidableEq

/-- A fetch oracle: the result of `octokit.issues.get` per issue number. -/
abbrev Fetch := Int → Option FetchedIssue

/-- The dependency loop of `isIssueBlocked`: fetch each dependency in turn;
a thrown fetch propagates to the surrounding catch (which returns false);
an open dependency short-circuits to true. -/
def checkDeps (fetch : Fetch) : List Int → Bool
  | [] => false
  | d :: rest =>
    match fetch d with
    | none => false
    | some di => if di.isOpen then true else checkDeps fetch rest

/-- `isIssueBlocked` from src/src/issue-hierarchy.ts. -/
def isIssueBlocked (fetch : Fetch) (issueNumber : Int) : Bool :=
  match fetch issueNumber with
  | none => false
  | some issue =>
    match issue.dependencies with
    | none => false
    | some deps => if deps.isEmpty then false else checkDeps fetch deps

/-- A remote label mutation issued by `updateBlockedStatus`. -/
inductive LabelAction where
  | add (issueNumber : Int) (label : String)
  | remove (issueNumber : Int) (label : String)
deriving DecidableEq

/-- `updateBlockedStatus` from src/src/issue-hierarchy.ts, returning the
list of label mutations it issues (errors are caught and yield no
mutation). -/
def updateBlockedStatus (fetch : Fetch) (issueNumber : Int) : List LabelAction :=
  let isBlocked := isIssueBlocked fetch issueNumber
  match fetch issueNumber with
  | none => []
  | some issue =>
    let hasBlockedLabel : Prop := "blocked" ∈ currentLabels issue.labels
    if isBlocked = true ∧ ¬ hasBlockedLabel then [.add issueNumber "blocked"]
    else if isBlocked = false ∧ hasBlockedLabel then [.remove issueNumber "blocked"]
    else []

lemma updateBlockedStatus_eq (fetch : Fetch) (n : Int) :
    updateBlockedStatus fetch n =
      match fetch n with
      | none => []
      | some issue =>
        if isIssueBlocked fetch n = true ∧ ¬ ("blocked" ∈ currentLabels issue.labels)
        then [.add n "blocked"]
        else if isIssueBlocked fetch n = false ∧ "blocked" ∈ currentLabels issue.labels
        then [.remove n "blocked"]
        else [] := rfl

/-- C1: `isIssueBlocked` returns false when the parsed front matter lists no
dependencies (absent or empty); when all dependency fetches succeed it
returns true iff some listed dependency's remote issue is open; and it fails
closed (returns false) when the issue fetch itself fails or when a
dependency fetch fails before any open dependency is found. -/
theorem C1_isIssueBlocked_spec (fetch : Fetch) (n : Int) :
    (∀ iss, fetch n = some iss → (iss.dependencies = none ∨ iss.dependencies = some []) →
      isIssueBlocked fetch n = false) ∧
    (∀ iss deps, fetch n = some iss → iss.dependencies = some deps →
      (∀ d ∈ deps, ∃ di, fetch d = some di) →
      (isIssueBlocked fetch n = true ↔ ∃ d ∈ deps, ∃ di, fetch d = some di ∧ di.isOpen = true)) ∧
    (fetch n = none → isIssueBlocked fetch n = false) ∧
    (∀ iss l₁ d l₂, fetch n = some iss → iss.dependencies = some (l₁ ++ d :: l₂) →
      (∀ x ∈ l₁, ∃ di, fetch x = some di ∧ di.isOpen = false) → fetch d = none →
      isIssueBlocked fetch n = false) := by
  have hcheck : ∀ deps, (∀ d ∈ deps, ∃ di, fetch d = some di) →
      (checkDeps fetch deps = true ↔ ∃ d ∈ deps, ∃ di, fetch d = some di ∧ di.isOpen = true) := by
    intro deps
    induction deps with
    | nil => intro _; simp [checkDeps]
    | cons d rest ih =>
      intro hall
      obtain ⟨di, hdi⟩ := hall d (by simp)
      simp only [checkDeps, hdi]
      by_cases hopen : di.isOpen
      · rw [if_pos hopen]
        constructor
        · intro _
          exact ⟨d, by simp, di, hdi, hopen⟩
        · intro _
          rfl
      · rw [if_neg hopen]
        have hrest := ih (fun x hx => hall x (by simp [hx]))
        rw [hrest]
        constructor
        · rintro ⟨x, hx, dx, hdx, hox⟩
          exact ⟨x, by simp [hx], dx, hdx, hox⟩
        · rintro ⟨x, hx, dx, hdx, hox⟩
          rcases List.mem_cons.mp hx with hx | hx
          · subst hx
            rw [hdi] at hdx
            cases hdx
            exact absurd hox hopen
          · exact ⟨x, hx, dx, hdx, hox⟩
  have hcheckFail : ∀ l₁ d l₂, (∀ x ∈ l₁, ∃ di, fetch x = some di ∧ di.isOpen = false) →
      fetch d = none → checkDeps fetch (l₁ ++ d :: l₂) = false := by
    intro l₁
    induction l₁ with
    | nil =>
      intro d l₂ _ hd
      simp [checkDeps, hd]
    | cons x rest ih =>
      intro d l₂ hall hd
      obtain ⟨dx, hdx, hox⟩ := hall x (by simp)
      simp only [List.cons_append, checkDeps, hdx]
      rw [hox]
      simp only [Bool.false_eq_true, if_false]
      exact ih d l₂ (fun y hy => hall y (by simp [hy])) hd
  refine ⟨?_, ?_, ?_, ?_⟩
  · intro iss hiss hdeps
    rcases hdeps with hdeps | hdeps <;> simp [isIssueBlocked, hiss, hdeps, List.isEmpty]
  · intro iss deps hiss hdeps hall
    by_cases hne : deps = []
    · subst hne
      simp only [isIssueBlocked, hiss, hdeps, List.isEmpty_nil, if_pos]
      constructor
      · intro h
        exact absurd h (by simp)
      · rintro ⟨d, hd, -⟩
        exact absurd hd (by simp)
    · simp only [isIssueBlocked, hiss, hdeps]
      rw [if_neg (by simpa [List.isEmpty_iff] using hne)]
      exact hcheck deps hall
  · intro h
    simp [isIssueBlocked, h]
  · intro iss l₁ d l₂ hiss hdeps hclosed hd
    simp only [isIssueBlocked, hiss, hdeps]
    have hne : ¬ ((l₁ ++ d :: l₂).isEmpty = true) := by
      simp [List.isEmpty_iff]
    rw [if_neg hne]
    exact hcheckFail l₁ d l₂ hclosed hd

/-- A concrete fetch oracle for the C1 witness: issue 10 depends on 2 and 3;
issue 2 is closed, issue 3 is open; issue 20 depends on 4 and 3, and
fetching issue 4 throws. -/
def fetchW : Fetch := fun k =>
  if k = 10 then some ⟨true, some [2, 3], []⟩
  else if k = 20 then some ⟨true, some [4, 3], []⟩
  else if k = 2 then some ⟨false, none, []⟩
  else if k = 3 then some ⟨true, none, []⟩
  else if k = 30 then some ⟨true, some [], []⟩
  else none

/-- C1 witness: the specification theorem applied at `fetchW`. -/
theorem C1_isIssueBlocked_spec_witness :
    isIssueBlocked fetchW 30 = false ∧ isIssueBlocked fetchW 10 = true ∧
    isIssueBlocked fetchW 99 = false ∧ isIssueBlocked fetchW 20 = false := by
  refine ⟨?_, ?_, ?_, ?_⟩
  · exact (C1_isIssueBlocked_spec fetchW 30).1 ⟨true, some [], []⟩ rfl (Or.inr rfl)
  · refine ((C1_isIssueBlocked_spec fetchW 10).2.1 ⟨true, some [2, 3], []⟩ [2, 3] rfl rfl
      ?_).mpr ⟨3, by decide, ⟨true, none, []⟩, rfl, rfl⟩
    intro d hd
    rcases List.mem_cons.mp hd with h | h
    · subst h
      exact ⟨⟨false, none, []⟩, rfl⟩
    · rcases List.mem_singleton.mp h with h
      subst h
      exact ⟨⟨true, none, []⟩, rfl⟩
  · exact (C1_isIssueBlocked_spec fetchW 99).2.2.1 rfl
  · refine (C1_isIssueBlocked_spec fetchW 20).2.2.2 ⟨true, some [4, 3], []⟩ [] 4 [3] rfl rfl
      ?_ rfl
    intro x hx
    exact absurd hx (by simp)

/-- C7: `updateBlockedStatus` adds the `blocked` label exactly when the
issue is computed blocked and the label is currently absent, removes it
exactly when the issue is computed not blocked and the label is currently
present, and issues no label mutation in every other case (including when
the issue fetch fails). -/
theorem C7_updateBlockedStatus_spec (fetch : Fetch) (n : Int) :
    (updateBlockedStatus fetch n = [LabelAction.add n "blocked"] ↔
      ∃ iss, fetch n = some iss ∧ isIssueBlocked fetch n = true ∧
        "blocked" ∉ currentLabels iss.labels) ∧
    (updateBlockedStatus fetch n = [LabelAction.remove n "blocked"] ↔
      ∃ iss, fetch n = some iss ∧ isIssueBlocked fetch n = false ∧
        "blocked" ∈ currentLabels iss.labels) ∧
    (∀ iss, fetch n = some iss →
      (isIssueBlocked fetch n = true ↔ "blocked" ∈ currentLabels iss.labels) →
      updateBlockedStatus fetch n = []) ∧
    (fetch n = none → updateBlockedStatus fetch n = []) := by
  have hchar := updateBlockedStatus_eq fetch n
  cases hf : fetch n with
  | none =>
    rw [hf] at hchar
    have hval : updateBlockedStatus fetch n = [] := hchar
    refine ⟨?_, ?_, ?_, fun _ => hval⟩
    · rw [hval]
      constructor
      · intro h
        cases h
      · rintro ⟨iss, hiss, -, -⟩
        cases hiss
    · rw [hval]
      constructor
      · intro h
        cases h
      · rintro ⟨iss, hiss, -, -⟩
        cases hiss
    · intro iss hiss _
      exact hval
  | some iss =>
    rw [hf] at hchar
    have hval : updateBlockedStatus fetch n =
        (if isIssueBlocked fetch n = true ∧ ¬ ("blocked" ∈ currentLabels iss.labels)
          then [LabelAction.add n "blocked"]
          else if isIssueBlocked fetch n = false ∧ "blocked" ∈ currentLabels iss.labels
          then [LabelAction.remove n "blocked"]
          else []) := hchar
    by_cases hb : isIssueBlocked fetch n = true <;>
      by_cases hl : "blocked" ∈ currentLabels iss.labels
    · have hv : updateBlockedStatus fetch n = [] := by
        rw [hval, if_neg (fun h => h.2 hl), if_neg (fun h => by
          rw [hb] at h
          exact Bool.noConfusion h.1)]
      refine ⟨?_, ?_, ?_, ?_⟩
      · rw [hv]
        constructor
        · intro h
          cases h
        · rintro ⟨iss', hiss', -, hl'⟩
          injection hiss' with h
          subst h
          exact absurd hl hl'
      · rw [hv]
        constructor
        · intro h
          cases h
        · rintro ⟨iss', hiss', hb', -⟩
          rw [hb] at hb'
          exact Bool.noConfusion hb'
      · intro _ _ _
        exact hv
      · intro h
        cases h
    · have hv : updateBlockedStatus fetch n = [LabelAction.add n "blocked"] := by
        rw [hval, if_pos ⟨hb, hl⟩]
      refine ⟨?_, ?_, ?_, ?_⟩
      · rw [hv]
        exact ⟨fun _ => ⟨iss, rfl, hb, hl⟩, fun _ => rfl⟩
      · rw [hv]
        constructor
        · intro h
          cases h
        · rintro ⟨iss', hiss', hb', -⟩
          rw [hb] at hb'
          exact Bool.noConfusion hb'
      · intro iss' hiss' hiff
        injection hiss' with h
        subst h
        exact absurd (hiff.mp hb) hl
      · intro h
        cases h
    · have hbf : isIssueBlocked fetch n = false := by
        cases hbv : isIssueBlocked fetch n
        · rfl
        · exact absurd hbv hb
      have hv : updateBlockedStatus fetch n = [LabelAction.remove n "blocked"] := by
        rw [hval, if_neg (fun h => hb h.1), if_pos ⟨hbf, hl⟩]
      refine ⟨?_, ?_, ?_, ?_⟩
      · rw [hv]
        constructor
        · intro h
          cases h
        · rintro ⟨iss', hiss', hb', -⟩
          exact absurd hb' hb
      · rw [hv]
        exact ⟨fun _ => ⟨iss, rfl, hbf, hl⟩, fun _ => rfl⟩
      · intro iss' hiss' hiff
        injection hiss' with h
        subst h
        exact absurd (hiff.mpr hl) hb
      · intro h
        cases h
    · have hbf : isIssueBlocked fetch n = false := by
        cases hbv : isIssueBlocked fetch n
        · rfl
        · exact absurd hbv hb
      have hv : updateBlockedStatus fetch n = [] := by
        rw [hval, if_neg (fun h => hb h.1), if_neg (fun h => hl h.2)]
      refine ⟨?_, ?_, ?_, ?_⟩
      · rw [hv]
        constructor
        · intro h
          cases h
        · rintro ⟨iss', hiss', hb', -⟩
          exact absurd hb' hb
      · rw [hv]
        constructor
        · intro h
          cases h
        · rintro ⟨iss', hiss', -, hl'⟩
          injection hiss' with h
          subst h
          exact absurd hl' hl
      · intro _ _ _
        exact hv
      · intro h
        cases h

/-- C7 witness: the specification theorem applied at `fetchW` (issue 10 is
blocked and unlabeled, so exactly one add-label call is issued). -/
theorem C7_updateBlockedStatus_spec_witness :
    updateBlockedStatus fetchW 10 = [LabelAction.add 10 "blocked"] := by
  exact (C7_updateBlockedStatus_spec fetchW 10).1.mpr
    ⟨⟨true, some [2, 3], []⟩, rfl, by decide, by decide⟩

/-! ## Sub-issue linking with fallback (src/src/issue-hierarchy.ts)

`createSubIssue` probes for the beta sub-issues API; if it is missing or its
call throws, it falls back to posting a reference comment on the parent, and
a failure of that comment is itself swallowed.  The capability probe and the
two remote call results are oracle parameters; the returned list records the
remote calls that were attempted. -/

inductive SubAction where
  | nativeLink (parent child : Int)
  | comment (issueNumber : Int) (body : String)
deriving DecidableEq

/-- `createFallbackRelationship`: post `Sub-issue: #<child>` on the parent;
a comment failure is caught and logged, never re-thrown. -/
def createFallbackRelationship (commentResult : Except String Unit)
    (parent child : Int) : Except String (List SubAction) :=
  match commentResult with
  | .ok _ => .ok [SubAction.comment parent ("Sub-issue: #" ++ toString child)]
  | .error _ => .ok [SubAction.comment parent ("Sub-issue: #" ++ toString child)]

/-- `createSubIssue` from src/src/issue-hierarchy.ts. -/
def createSubIssue (hasNativeApi : Bool) (nativeResult : Except String Unit)
    (commentResult : Except String Unit) (parent child : Int) :
    Except String (List SubAction) :=
  if hasNativeApi then
    match nativeResult with
    | .ok _ => .ok [SubAction.nativeLink parent child]
    | .error _ =>
      match createFallbackRelationship commentResult parent child with
      | .ok acts => .ok (SubAction.nativeLink parent child :: acts)
      | .error e => .error e
  else createFallbackRelationship commentResult parent child

/-- C9: `createSubIssue` never propagates an error to its caller, and
whenever the native capability is unavailable or its invocation errors, the
fallback comment `Sub-issue: #<child>` is attempted on the parent issue
(even a failing fallback comment is swallowed). -/
theorem C9_createSubIssue_never_fails (hasNativeApi : Bool)
    (nativeResult commentResult : Except String Unit) (parent child : Int) :
    ∃ acts, createSubIssue hasNativeApi nativeResult commentResult parent child = .ok acts ∧
      ((hasNativeApi = false ∨ ∃ e, nativeResult = .error e) →
        SubAction.comment parent ("Sub-issue: #" ++ toString child) ∈ acts) := by
  cases hasNativeApi with
  | false =>
    cases commentResult with
    | ok u =>
      exact ⟨[SubAction.comment parent ("Sub-issue: #" ++ toString child)], rfl,
        fun _ => by simp⟩
    | error e =>
      exact ⟨[SubAction.comment parent ("Sub-issue: #" ++ toString child)], rfl,
        fun _ => by simp⟩
  | true =>
    cases nativeResult with
    | ok u =>
      refine ⟨[SubAction.nativeLink parent child], rfl, ?_⟩
      rintro (h | ⟨e, h⟩)
      · cases h
      · cases h
    | error e =>
      cases commentResult with
      | ok u =>
        exact ⟨[SubAction.nativeLink parent child,
          SubAction.comment parent ("Sub-issue: #" ++ toString child)], rfl, fun _ => by simp⟩
      | error e' =>
        exact ⟨[SubAction.nativeLink parent child,
          SubAction.comment parent ("Sub-issue: #" ++ toString child)], rfl, fun _ => by simp⟩

/-- C9 witness: the theorem applied with the native API missing and a
failing fallback comment; the comment is still attempted and no error
escapes. -/
theorem C9_createSubIssue_never_fails_witness :
    ∃ acts, createSubIssue false (.ok ()) (.error "comment failed") 7 8 = .ok acts ∧
      SubAction.comment 7 "Sub-issue: #8" ∈ acts := by
  obtain ⟨acts, hacts, hmem⟩ :=
    C9_createSubIssue_never_fails false (.ok ()) (.error "comment failed") 7 8
  exact ⟨acts, hacts, hmem (Or.inl rfl)⟩

/-! ## Artifact recovery (src/src/main.ts, `downloadFromArtifactUrl`)

JSON values are modelled by a small inductive `JVal` with JS truthiness.
`JSON.parse` and the SHA-256 hash are third-party calls, abstracted as
function parameters `parseJson` and `sha256`; `new Date().toISOString()` is
the parameter `nowIso`.  The `fetch` call's outcome per attempt is an oracle
value: either a thrown error or a response with `ok`, `status`,
`statusText` and body text. -/

inductive JVal where
  | jnull
  | jbool (b : Bool)
  | jnum (n : Int)
  | jstr (s : String)
  | jarr (xs : List JVal)
  | jobj (fields : List (String × JVal))

/-- JS truthiness of a possibly-undefined value (`none` = undefined). -/
def truthy : Option JVal → Bool
  | none => false
  | some .jnull => false
  | some (.jbool b) => b
  | some (.jnum n) => decide (n ≠ 0)
  | some (.jstr s) => decide (s ≠ "")
  | some (.jarr _) => true
  | some (.jobj _) => true

/-- Property access `v[k]` (undefined on non-objects and missing keys). -/
def getField : JVal → String → Option JVal
  | .jobj fs, k => (fs.find? (fun p => p.1 = k)).map (fun p => p.2)
  | _, _ => none

/-- JS `a || b` with a possibly-undefined left operand. -/
def jor (v : Option JVal) (d : JVal) : JVal :=
  if truthy v then v.getD d else d

/-- JS truthiness of a possibly-undefined string. -/
def truthyStr : Option String → Bool
  | none => false
  | some s => decide (s ≠ "")

/-- `data.tasks.length` for the legacy transform (array or string length;
otherwise undefined). -/
def jsLength : JVal → Option JVal
  | .jarr xs => some (.jnum (Int.ofNat xs.length))
  | .jstr s => some (.jnum (Int.ofNat s.length))
  | _ => none

/-- `transformToEnhancedTaskGraph` from src/src/main.ts: pass through an
enhanced-shape object, lift a legacy `tasks` shape into the enhanced shape,
and throw on anything else. -/
def transformToEnhancedTaskGraph (nowIso : String) (data : JVal) : Except String JVal :=
  if truthy (getField data "master") && truthy (getField data "metadata") then .ok data
  else if truthy (getField data "tasks") then
    let tasksV := (getField data "tasks").getD .jnull
    let metaV := getField data "metadata"
    .ok (.jobj [
      ("master", .jobj [("tasks", tasksV), ("metadata", jor metaV (.jobj []))]),
      ("metadata", .jobj [
        ("prdSource", jor (metaV.bind (fun m => getField m "prdFiles")) (.jarr [])),
        ("taskCount", (jsLength tasksV).getD .jnull),
        ("generationTimestamp",
          jor (metaV.bind (fun m => getField m "created")) (.jstr nowIso)),
        ("complexityScores",
          jor (metaV.bind (fun m => getField m "complexityScores"))
            (.jobj [("min", .jnum 0), ("max", .jnum 0), ("average", .jnum 0)])),
        ("hierarchyDepth",
          jor (metaV.bind (fun m => getField m "hierarchyDepth")) (.jnum 1)),
        ("prdVersion",
          jor (metaV.bind (fun m => getField m "prdVersion")) (.jstr "unknown")),
        ("taskmasterVersion",
          jor (metaV.bind (fun m => getField m "taskmasterVersion")) (.jstr "unknown")),
        ("retentionPolicy", .jobj [("maxAge", .jstr "30d"), ("maxCount", .jnum 10)])
      ])
    ])
  else .error "Invalid task graph format"

/-- The per-task loop of `validateTaskGraphStructure`. -/
def validateTasks : List JVal → Except String Unit
  | [] => .ok ()
  | t :: rest =>
    if truthy (getField t "id") && truthy (getField t "title") then validateTasks rest
    else .error "Invalid task structure: missing id or title"

/-- `validateTaskGraphStructure` from src/src/main.ts (an empty tasks array
only warns). -/
def validateTaskGraphStructure (g : JVal) : Except String Unit :=
  if truthy (getField g "master") && truthy (getField g "metadata") then
    match (getField g "master").bind (fun m => getField m "tasks") with
    | some (.jarr tasks) => validateTasks tasks
    | _ => .error "Invalid task graph structure: tasks must be an array"
  else .error "Invalid task graph structure: missing master or metadata"

/-- `validateSignature` from src/src/main.ts: the placeholder implementation
hashes the data for logging and returns true unconditionally. -/
def validateSignature (sha256 : String → String) (data publicKey : String) : Bool :=
  let _hash := sha256 data
  true

/-- The outcome of one `fetch(artifactUrl)` call. -/
inductive FetchOutcome where
  | fetchThrow (e : ErrInfo)
  | response (ok : Bool) (status : Int) (statusText : String) (body : String)

/-- `DownloadValidationOptions` with the destructuring defaults of
`downloadFromArtifactUrl`. -/
structure DownloadValidationOptions where
  validateChecksum : Bool := true
  validateSignature : Bool := false
  expectedChecksum : Option String := none
  publicKey : Option String := none
  maxRetries : Nat := 3
  retryDelayMs : Int := 1000

/-- An error thrown as `new Error(msg)`. -/
def msgErr (s : String) : ErrInfo := { message := s }

/-- One attempt of the operation wrapped by `executeWithRetry` inside
`downloadFromArtifactUrl`: download, optional checksum and signature
validation, JSON parse plus format transform (whose errors share the parse
wrapper), and structural validation. -/
def downloadAttempt (sha256 : String → String) (parseJson : String → Except String JVal)
    (nowIso : String) (opts : DownloadValidationOptions) (outcome : FetchOutcome) :
    Except ErrInfo JVal :=
  match outcome with
  | .fetchThrow e => .error e
  | .response ok status statusText artifactData =>
    if !ok then
      .error (msgErr ("Failed to download artifact: " ++ toString status ++ " " ++ statusText))
    else if opts.validateChecksum && truthyStr opts.expectedChecksum &&
        !(sha256 artifactData = opts.expectedChecksum.getD "") then
      .error (msgErr ("Checksum validation failed. Expected: " ++
        opts.expectedChecksum.getD "" ++ ", Actual: " ++ sha256 artifactData))
    else if opts.validateSignature && truthyStr opts.publicKey &&
        !(validateSignature sha256 artifactData (opts.publicKey.getD "")) then
      .error (msgErr "Signature validation failed")
    else
      match parseJson artifactData with
      | .error pe => .error (msgErr ("Failed to parse artifact JSON: " ++ pe))
      | .ok parsed =>
        match transformToEnhancedTaskGraph nowIso parsed with
        | .error te => .error (msgErr ("Failed to parse artifact JSON: " ++ te))
        | .ok tg =>
          match validateTaskGraphStructure tg with
          | .error ve => .error (msgErr ve)
          | .ok _ => .ok tg

/-- `downloadFromArtifactUrl`: the attempt wrapped by the retry executor.
`outcomes i` is the fetch outcome of attempt `i`. -/
def downloadFromArtifactUrl (sha256 : String → String)
    (parseJson : String → Except String JVal) (nowIso : String) (nowMs : Int) (q : Nat)
    (opts : DownloadValidationOptions) (outcomes : Nat → FetchOutcome) :
    Except ErrInfo JVal :=
  executeWithRetry (fun attempt => downloadAttempt sha256 parseJson nowIso opts
    (outcomes attempt)) nowMs q opts.maxRetries

lemma retryGo_all_error {α : Type} (op : Nat → Except ErrInfo α) (nowMs : Int) (q : Nat)
    (h : ∀ i, ∃ e, op i = .error e) :
    ∀ remaining attempt, ∃ e, retryGo op nowMs q attempt remaining = .error e := by
  intro remaining
  induction remaining with
  | zero =>
    intro attempt
    obtain ⟨e, he⟩ := h attempt
    exact ⟨e, by simp [retryGo, he]⟩
  | succ r ih =>
    intro attempt
    obtain ⟨e, he⟩ := h attempt
    by_cases hr : (categorizeError nowMs q e).retryable = true
    · obtain ⟨e', he'⟩ := ih (attempt + 1)
      exact ⟨e', by simp [retryGo, he, hr, he']⟩
    · exact ⟨e, by simp [retryGo, he, hr]⟩

/-- C3: with checksum validation enabled and an expected checksum supplied,
any download whose SHA-256 differs from the expected value makes the
download attempt throw the checksum error (it never returns a parsed task
graph); and when every retry attempt downloads mismatching data the whole
retry-wrapped `downloadFromArtifactUrl` call errors as well. -/
theorem C3_checksum_mismatch_fails (sha256 : String → String)
    (parseJson : String → Except String JVal) (nowIso : String)
    (opts : DownloadValidationOptions) :
    (∀ st stx data, opts.validateChecksum = true → truthyStr opts.expectedChecksum = true →
      ¬ (sha256 data = opts.expectedChecksum.getD "") →
      downloadAttempt sha256 parseJson nowIso opts (.response true st stx data) =
        .error (msgErr ("Checksum validation failed. Expected: " ++
          opts.expectedChecksum.getD "" ++ ", Actual: " ++ sha256 data)) ∧
      ∀ g, ¬ (downloadAttempt sha256 parseJson nowIso opts (.response true st stx data) =
        .ok g)) ∧
    (∀ nowMs q outcomes,
      (∀ i : Nat, ∃ st stx data, outcomes i = FetchOutcome.response true st stx data ∧
        ¬ (sha256 data = opts.expectedChecksum.getD "")) →
      opts.validateChecksum = true → truthyStr opts.expectedChecksum = true →
      ∃ e, downloadFromArtifactUrl sha256 parseJson nowIso nowMs q opts outcomes =
        .error e) := by
  have hattempt : ∀ st stx data, opts.validateChecksum = true →
      truthyStr opts.expectedChecksum = true →
      ¬ (sha256 data = opts.expectedChecksum.getD "") →
      downloadAttempt sha256 parseJson nowIso opts (.response true st stx data) =
        .error (msgErr ("Checksum validation failed. Expected: " ++
          opts.expectedChecksum.getD "" ++ ", Actual: " ++ sha256 data)) := by
    intro st stx data hck hexp hne
    simp only [downloadAttempt, Bool.not_true, Bool.false_eq_true, if_false]
    rw [if_pos]
    rw [hck, hexp]
    simp only [Bool.true_and]
    simpa using hne
  constructor
  · intro st stx data hck hexp hne
    refine ⟨hattempt st stx data hck hexp hne, ?_⟩
    intro g hg
    rw [hattempt st stx data hck hexp hne] at hg
    cases hg
  · intro nowMs q outcomes houtcomes hck hexp
    apply retryGo_all_error
    intro i
    obtain ⟨st, stx, data, hi, hne⟩ := houtcomes i
    rw [hi]
    exact ⟨_, hattempt st stx data hck hexp hne⟩

/-- C3 witness: the theorem applied with an identity hash model, a constant
response body whose hash differs from the expected checksum, and the
default options with checksum validation on. -/
theorem C3_checksum_mismatch_fails_witness :
    downloadAttempt (fun s => s) (fun _ => .error "unused") "now"
        { expectedChecksum := some "deadbeef" } (.response true 200 "OK" "payload") =
      .error (msgErr "Checksum validation failed. Expected: deadbeef, Actual: payload") ∧
    ∃ e, downloadFromArtifactUrl (fun s => s) (fun _ => .error "unused") "now" 0 0
        { expectedChecksum := some "deadbeef" }
        (fun _ => .response true 200 "OK" "payload") = .error e := by
  constructor
  · exact ((C3_checksum_mismatch_fails (fun s => s) (fun _ => .error "unused") "now"
      { expectedChecksum := some "deadbeef" }).1 200 "OK" "payload" rfl (by decide)
      (by decide)).1
  · exact (C3_checksum_mismatch_fails (fun s => s) (fun _ => .error "unused") "now"
      { expectedChecksum := some "deadbeef" }).2 0 0 (fun _ => .response true 200 "OK" "payload")
      (fun _ => ⟨200, "OK", "payload", rfl, by decide⟩) rfl (by decide)

lemma ne_of_string_head (s t : String) (c₁ c₂ : Char) (h₁ : s.data.head? = some c₁)
    (h₂ : t.data.head? = some c₂) (hne : ¬ (c₁ = c₂)) : ¬ (s = t) := by
  intro heq
  rw [heq, h₂] at h₁
  injection h₁ with h
  exact hne h.symm

lemma head?_append_str (a s : String) (c : Char) (h : a.data.head? = some c) :
    (a ++ s).data.head? = some c := by
  rw [String.data_append]
  cases ha : a.data with
  | nil =>
    rw [ha] at h
    cases h
  | cons x xs =>
    rw [ha] at h
    simpa using h

/-- C10: the placeholder `validateSignature` returns true for every payload
and key, so the `Signature validation failed` branch of
`downloadFromArtifactUrl` is unreachable: no download attempt on a fetch
response ever produces that error, and signature validation never rejects
an artifact. -/
theorem C10_signature_validation_unreachable :
    (∀ (sha256 : String → String) (data publicKey : String),
      validateSignature sha256 data publicKey = true) ∧
    (∀ (sha256 : String → String) (parseJson : String → Except String JVal)
      (nowIso : String) (opts : DownloadValidationOptions) (ok : Bool) (st : Int)
      (stx data : String) (e : ErrInfo),
      downloadAttempt sha256 parseJson nowIso opts (.response ok st stx data) = .error e →
      ¬ (e.message = "Signature validation failed")) := by
  refine ⟨fun _ _ _ => rfl, ?_⟩
  intro sha256 parseJson nowIso opts ok st stx data e hrun hmsg
  have hsig : (opts.validateSignature && truthyStr opts.publicKey &&
      !(validateSignature sha256 data (opts.publicKey.getD ""))) = false := by
    rw [validateSignature]
    simp
  simp only [downloadAttempt] at hrun
  rcases hok : ok with - | -
  · rw [hok] at hrun
    simp only [Bool.not_false, if_true] at hrun
    injection hrun with h
    subst h
    exact absurd hmsg (ne_of_string_head _ _ 'F' 'S'
      (head?_append_str _ _ 'F' (head?_append_str _ _ 'F'
        (head?_append_str _ _ 'F' (by decide)))) (by decide) (by decide))
  · rw [hok] at hrun
    simp only [Bool.not_true, Bool.false_eq_true, if_false] at hrun
    by_cases hck : (opts.validateChecksum && truthyStr opts.expectedChecksum &&
        !(sha256 data = opts.expectedChecksum.getD "" : Bool)) = true
    · rw [if_pos hck] at hrun
      injection hrun with h
      subst h
      exact absurd hmsg (ne_of_string_head _ _ 'C' 'S'
        (head?_append_str _ _ 'C' (head?_append_str _ _ 'C'
          (head?_append_str _ _ 'C' (by decide)))) (by decide) (by decide))
    · rw [if_neg hck, hsig] at hrun
      simp only [Bool.false_eq_true, if_false] at hrun
      rcases hp : parseJson data with pe | parsed
      · rw [hp] at hrun
        replace hrun : (Except.error (msgErr ("Failed to parse artifact JSON: " ++ pe)) :
            Except ErrInfo JVal) = Except.error e := hrun
        injection hrun with h
        subst h
        exact absurd hmsg (ne_of_string_head _ _ 'F' 'S'
          (head?_append_str _ _ 'F' (by decide)) (by decide) (by decide))
      · rw [hp] at hrun
        replace hrun : (match transformToEnhancedTaskGraph nowIso parsed with
            | Except.error te => Except.error (msgErr ("Failed to parse artifact JSON: " ++ te))
            | Except.ok tg =>
              match validateTaskGraphStructure tg with
              | Except.error ve => Except.error (msgErr ve)
              | Except.ok _ => Except.ok tg) = Except.error e := hrun
        rcases ht : transformToEnhancedTaskGraph nowIso parsed with te | tg
        · rw [ht] at hrun
          replace hrun : (Except.error (msgErr ("Failed to parse artifact JSON: " ++ te)) :
              Except ErrInfo JVal) = Except.error e := hrun
          injection hrun with h
          subst h
          exact absurd hmsg (ne_of_string_head _ _ 'F' 'S'
            (head?_append_str _ _ 'F' (by decide)) (by decide) (by decide))
        · rw [ht] at hrun
          replace hrun : (match validateTaskGraphStructure tg with
              | Except.error ve => Except.error (msgErr ve)
              | Except.ok _ => (Except.ok tg : Except ErrInfo JVal)) = Except.error e := hrun
          rcases hv : validateTaskGraphStructure tg with ve | u
          · rw [hv] at hrun
            replace hrun : (Except.error (msgErr ve) : Except ErrInfo JVal) =
                Except.error e := hrun
            injection hrun with h
            subst h
            have hve : ve = "Invalid task graph structure: missing master or metadata" ∨
                ve = "Invalid task graph structure: tasks must be an array" ∨
                ve = "Invalid task structure: missing id or title" := by
              have hvt : ∀ ts, validateTasks ts = .error ve →
                  ve = "Invalid task structure: missing id or title" := by
                intro ts
                induction ts with
                | nil =>
                  intro h
                  cases h
                | cons t rest ih =>
                  intro h
                  rw [validateTasks] at h
                  by_cases hc : (truthy (getField t "id") && truthy (getField t "title")) = true
                  · rw [if_pos hc] at h
                    exact ih h
                  · rw [if_neg hc] at h
                    injection h with h
                    exact h.symm
              rw [validateTaskGraphStructure] at hv
              by_cases hm : (truthy (getField tg "master") && truthy (getField tg "metadata"))
                  = true
              · rw [if_pos hm] at hv
                rcases hts : (getField tg "master").bind (fun m => getField m "tasks") with
                  - | tv
                · rw [hts] at hv
                  injection hv with h
                  exact Or.inr (Or.inl h.symm)
                · rw [hts] at hv
                  cases tv with
                  | jarr ts => exact Or.inr (Or.inr (hvt ts hv))
                  | jnull =>
                    injection hv with h
                    exact Or.inr (Or.inl h.symm)
                  | jbool b =>
                    injection hv with h
                    exact Or.inr (Or.inl h.symm)
                  | jnum nn =>
                    injection hv with h
                    exact Or.inr (Or.inl h.symm)
                  | jstr ss =>
                    injection hv with h
                    exact Or.inr (Or.inl h.symm)
                  | jobj fs =>
                    injection hv with h
                    exact Or.inr (Or.inl h.symm)
              · rw [if_neg hm] at hv
                injection hv with h
                exact Or.inl h.symm
            rcases hve with hve | hve | hve <;> rw [hve] at hmsg <;>
              exact absurd hmsg (by decide)
          · rw [hv] at hrun
            replace hrun : (Except.ok tg : Except ErrInfo JVal) = Except.error e := hrun
            cases hrun

/-- C10 witness: the theorem applied at the identity hash: the signature
check passes on a concrete artifact, and a concrete failing attempt carries
a non-signature error message. -/
theorem C10_signature_validation_unreachable_witness :
    validateSignature (fun s => s) "payload" "key" = true ∧
    ¬ ((msgErr "Failed to download artifact: 404 Not Found").message =
      "Signature validation failed") := by
  constructor
  · exact C10_signature_validation_unreachable.1 (fun s => s) "payload" "key"
  · exact C10_signature_validation_unreachable.2 (fun s => s) (fun _ => .error "x") "now"
      {} false 404 "Not Found" "body" (msgErr "Failed to download artifact: 404 Not Found")
      rfl

/-! ## Hierarchy depth (src/src/main.ts, `calculateHierarchyDepth`)

The function runs a depth-first cycle scan (shared `visited` set, per-root
`path` set) and, when no cycle is found, a memoized longest-chain
computation.  The imperative sets and memo map are threaded explicitly; the
two recursions are embedded with a fuel parameter (returning `none` on fuel
exhaustion), and the fuel `tasks.length + 1` used by the entry point is
proved sufficient, which is the termination claim. -/

structure HTask where
  id : Int
  dependencies : Option (List Int)
deriving DecidableEq

/-- `tasks.find(t => t.id === taskId)`. -/
def findTask (tasks : List HTask) (taskId : Int) : Option HTask :=
  tasks.find? (fun t => t.id == taskId)

/-- The dependency list the algorithm iterates for an id: empty when the
task is missing or its `dependencies` field is absent. -/
def depsOfId (tasks : List HTask) (a : Int) : List Int :=
  match findTask tasks a with
  | none => []
  | some t => t.dependencies.getD []

/-- The dependency edge relation: `a` depends on `b`. -/
def depEdge (tasks : List HTask) (a b : Int) : Prop :=
  b ∈ depsOfId tasks a

/-- The inner `for (const depId of task.dependencies)` loop of `hasCycle`,
threading the shared `visited` set and short-circuiting on a found cycle. -/
def depsLoop (rec : Int → List Int → Option (Bool × List Int)) :
    List Int → List Int → Option (Bool × List Int)
  | [], visited => some (false, visited)
  | d :: rest, visited =>
    match rec d visited with
    | none => none
    | some (true, v) => some (true, v)
    | some (false, v) => depsLoop rec rest v

/-- `hasCycle(taskId, visited, path)` from `calculateHierarchyDepth`:
depth-first search with a recursion-path set distinct from the fully-visited
set.  Returns the result and the updated shared `visited` set. -/
def hasCycleGo (tasks : List HTask) : Nat → Int → List Int → List Int →
    Option (Bool × List Int)
  | 0 => fun _ _ _ => none
  | fuel + 1 => fun taskId visited path =>
    if taskId ∈ path then some (true, visited)
    else if taskId ∈ visited then some (false, visited)
    else
      match findTask tasks taskId with
      | none => some (false, taskId :: visited)
      | some t =>
        match t.dependencies with
        | none => some (false, taskId :: visited)
        | some ds =>
          depsLoop (fun d v => hasCycleGo tasks fuel d v (taskId :: path)) ds
            (taskId :: visited)

/-- The outer cycle scan: run `hasCycle` from every not-yet-visited task
with a fresh path set, sharing `visited` across roots. -/
def scanLoop (tasks : List HTask) (fuel : Nat) : List HTask → List Int → Option Bool
  | [], _ => some false
  | t :: rest, visited =>
    if t.id ∈ visited then scanLoop tasks fuel rest visited
    else
      match hasCycleGo tasks fuel t.id visited [] with
      | none => none
      | some (true, _) => some true
      | some (false, v) => scanLoop tasks fuel rest v

/-- `memo.get` on the threaded memo map (later entries shadow earlier). -/
def lookupMemo (memo : List (Int × Nat)) (a : Int) : Option Nat :=
  (memo.find? (fun p => p.1 == a)).map (fun p => p.2)

/-- The `for (const depId of task.dependencies)` loop of `calculateDepth`:
`acc` is the running `maxDepth`. -/
def depthLoop (rec : Int → List (Int × Nat) → Option (Nat × List (Int × Nat))) :
    List Int → Nat → List (Int × Nat) → Option (Nat × List (Int × Nat))
  | [], acc, memo => some (acc, memo)
  | d :: rest, acc, memo =>
    match rec d memo with
    | none => none
    | some (v, memo') => depthLoop rec rest (Nat.max acc v) memo'

/-- `calculateDepth(taskId, memo)` from `calculateHierarchyDepth`: memoized
longest-chain depth (missing task, missing or empty dependency list give
1). -/
def calcDepth (tasks : List HTask) : Nat → Int → List (Int × Nat) →
    Option (Nat × List (Int × Nat))
  | 0 => fun _ _ => none
  | fuel + 1 => fun taskId memo =>
    match lookupMemo memo taskId with
    | some d => some (d, memo)
    | none =>
      match findTask tasks taskId with
      | none => some (1, (taskId, 1) :: memo)
      | some t =>
        match t.dependencies with
        | none => some (1, (taskId, 1) :: memo)
        | some [] => some (1, (taskId, 1) :: memo)
        | some (d :: ds) =>
          match depthLoop (fun x m => calcDepth tasks fuel x m) (d :: ds) 0 memo with
          | none => none
          | some (mx, memo') => some (mx + 1, (taskId, mx + 1) :: memo')

/-- `tasks.map(task => calculateDepth(task.id, memo))` with the shared
memo threaded left to right. -/
def depthsLoop (tasks : List HTask) (fuel : Nat) : List HTask → List (Int × Nat) →
    Option (List Nat)
  | [], _ => some []
  | t :: rest, memo =>
    match calcDepth tasks fuel t.id memo with
    | none => none
    | some (v, memo') => (depthsLoop tasks fuel rest memo').map (fun l => v :: l)

/-- `Math.max(...)` over the (positive) collected depths. -/
def listMax (l : List Nat) : Nat := l.foldl Nat.max 0

/-- `calculateHierarchyDepth` from src/src/main.ts, with the fuel
`tasks.length + 1` proved sufficient below. -/
def calculateHierarchyDepth (tasks : List HTask) : Option Nat :=
  if tasks.isEmpty then some 0
  else
    match scanLoop tasks (tasks.length + 1) tasks [] with
    | none => none
    | some true => some 1
    | some false =>
      match depthsLoop tasks (tasks.length + 1) tasks [] with
      | none => none
      | some ds => some (listMax ds)

/-- A dependency chain: a nonempty sequence of ids with each element
depending on the next. -/
def IsChain (tasks : List HTask) : List Int → Prop
  | [] => False
  | [_] => True
  | a :: b :: rest => depEdge tasks a b ∧ IsChain tasks (b :: rest)

example : calculateHierarchyDepth
    [⟨1, some []⟩, ⟨2, some [1]⟩, ⟨3, some [2]⟩] = some 3 := by decide

example : calculateHierarchyDepth [⟨1, some [2]⟩, ⟨2, some [1]⟩, ⟨3, some []⟩] = some 1 := by
  decide

example : calculateHierarchyDepth [⟨1, some [1]⟩] = some 1 := by decide

example : calculateHierarchyDepth [] = some 0 := by decide

example : calculateHierarchyDepth [⟨1, some [99]⟩] = some 2 := by decide

/-! ### Fuel sufficiency for the cycle scan

The DFS path grows by one id per nesting level, its elements are distinct,
and every element but the current one is the id of a found task; so the
nesting depth is bounded by the number of distinct task ids not yet on the
path, and fuel `tasks.length + 1` never runs out. -/

/-- Number of distinct task ids outside `path`. -/
def countOutside (tasks : List HTask) (path : List Int) : Nat :=
  ((tasks.map HTask.id).dedup.filter (fun i => decide (i ∉ path))).length

lemma filter_imp_length_le {α : Type} (p q : α → Bool) (h : ∀ x, p x = true → q x = true)
    (l : List α) : (l.filter p).length ≤ (l.filter q).length := by
  induction l with
  | nil => exact Nat.le_refl 0
  | cons x xs ih =>
    by_cases hp : p x = true
    · rw [List.filter_cons_of_pos hp, List.filter_cons_of_pos (h x hp)]
      exact Nat.succ_le_succ ih
    · rw [List.filter_cons_of_neg (by simpa using hp)]
      by_cases hq : q x = true
      · rw [List.filter_cons_of_pos hq]
        exact Nat.le_succ_of_le ih
      · rw [List.filter_cons_of_neg (by simpa using hq)]
        exact ih

lemma filter_notMem_cons_length_lt {l : List Int} (hnd : l.Nodup) {a : Int} (ha : a ∈ l)
    (path : List Int) (hap : a ∉ path) :
    (l.filter (fun i => decide (i ∉ a :: path))).length <
      (l.filter (fun i => decide (i ∉ path))).length := by
  induction l with
  | nil => cases ha
  | cons x xs ih =>
    rcases List.mem_cons.mp ha with hx | hx
    · subst hx
      rw [List.filter_cons_of_neg (by simp), List.filter_cons_of_pos (by simpa using hap)]
      refine Nat.lt_succ_of_le (filter_imp_length_le _ _ ?_ xs)
      intro y hy
      simp only [decide_eq_true_eq] at hy ⊢
      intro hmem
      exact hy (List.mem_cons_of_mem _ hmem)
    · have hxa : ¬ (x = a) := by
        intro h
        subst h
        exact (List.nodup_cons.mp hnd).1 hx
      have ih' := ih (List.nodup_cons.mp hnd).2 hx
      by_cases hxp : x ∈ path
      · rw [List.filter_cons_of_neg (by simp [hxp]),
          List.filter_cons_of_neg (by simp [hxp])]
        exact ih'
      · rw [List.filter_cons_of_pos (by simp [hxp, hxa]),
          List.filter_cons_of_pos (by simpa using hxp)]
        exact Nat.succ_lt_succ ih'

lemma countOutside_cons_lt (tasks : List HTask) {a : Int} (ha : a ∈ tasks.map HTask.id)
    {path : List Int} (hap : a ∉ path) :
    countOutside tasks (a :: path) < countOutside tasks path :=
  filter_notMem_cons_length_lt (List.nodup_dedup _) (List.mem_dedup.mpr ha) path hap

lemma findTask_id_mem {tasks : List HTask} {a : Int} {t : HTask}
    (h : findTask tasks a = some t) : t ∈ tasks ∧ a ∈ tasks.map HTask.id := by
  have hmem := List.mem_of_find?_eq_some h
  have hpred := List.find?_some h
  have hid : t.id = a := by simpa using hpred
  exact ⟨hmem, List.mem_map.mpr ⟨t, hmem, hid⟩⟩

lemma depsLoop_ne_none {rec : Int → List Int → Option (Bool × List Int)}
    (h : ∀ d v, ¬ (rec d v = none)) :
    ∀ ds visited, ¬ (depsLoop rec ds visited = none) := by
  intro ds
  induction ds with
  | nil =>
    intro visited hcontra
    cases hcontra
  | cons d rest ih =>
    intro visited hcontra
    rw [depsLoop] at hcontra
    rcases hr : rec d visited with - | ⟨b, v⟩
    · exact h d visited hr
    · rw [hr] at hcontra
      cases b with
      | true => cases hcontra
      | false => exact ih v hcontra

lemma hasCycleGo_ne_none (tasks : List HTask) :
    ∀ fuel path taskId visited, countOutside tasks path + 1 ≤ fuel →
      ¬ (hasCycleGo tasks fuel taskId visited path = none) := by
  intro fuel
  induction fuel with
  | zero =>
    intro path taskId visited hle
    omega
  | succ f ih =>
    intro path taskId visited hle hcontra
    rw [hasCycleGo] at hcontra
    beta_reduce at hcontra
    by_cases hp : taskId ∈ path
    · rw [if_pos hp] at hcontra
      cases hcontra
    · rw [if_neg hp] at hcontra
      by_cases hv : taskId ∈ visited
      · rw [if_pos hv] at hcontra
        cases hcontra
      · rw [if_neg hv] at hcontra
        rcases hft : findTask tasks taskId with - | t
        · rw [hft] at hcontra
          cases hcontra
        · rw [hft] at hcontra
          replace hcontra : (match t.dependencies with
              | none => some (false, taskId :: visited)
              | some ds =>
                depsLoop (fun d v => hasCycleGo tasks f d v (taskId :: path)) ds
                  (taskId :: visited)) = none := hcontra
          rcases hdep : t.dependencies with - | ds
          · rw [hdep] at hcontra
            cases hcontra
          · rw [hdep] at hcontra
            have hmem : taskId ∈ tasks.map HTask.id := (findTask_id_mem hft).2
            have hlt := countOutside_cons_lt tasks hmem hp
            refine depsLoop_ne_none (fun d v => ih (taskId :: path) d v ?_) ds
              (taskId :: visited) hcontra
            omega

lemma scanLoop_ne_none (tasks : List HTask) (fuel : Nat)
    (hfuel : (tasks.map HTask.id).dedup.length + 1 ≤ fuel) :
    ∀ ts visited, ¬ (scanLoop tasks fuel ts visited = none) := by
  intro ts
  induction ts with
  | nil =>
    intro visited hcontra
    cases hcontra
  | cons t rest ih =>
    intro visited hcontra
    rw [scanLoop] at hcontra
    by_cases hv : t.id ∈ visited
    · rw [if_pos hv] at hcontra
      exact ih visited hcontra
    · rw [if_neg hv] at hcontra
      have hc0 : countOutside tasks [] + 1 ≤ fuel := by
        have : countOutside tasks [] ≤ (tasks.map HTask.id).dedup.length := by
          simpa [countOutside] using
            List.length_filter_le (fun i => decide (i ∉ ([] : List Int)))
              (tasks.map HTask.id).dedup
        omega
      rcases hr : hasCycleGo tasks fuel t.id visited [] with - | ⟨b, v⟩
      · exact hasCycleGo_ne_none tasks fuel [] t.id visited hc0 hr
      · rw [hr] at hcontra
        cases b with
        | true => cases hcontra
        | false => exact ih v hcontra

/-! ### Soundness of the cycle scan

When the DFS reports a cycle, the recursion path is an actual chain of
dependency edges, so a back edge into it closes a real cycle. -/

/-- The recursion-path invariant: `path = [p₀, p₁, …]` lists the ancestors
of the current node `x`, deepest first, each depending on the next-deeper
one: `p₀` depends on `x`, `p₁` on `p₀`, and so on. -/
def PathCtx (tasks : List HTask) : List Int → Int → Prop
  | [], _ => True
  | p :: rest, x => depEdge tasks p x ∧ PathCtx tasks rest p

lemma pathCtx_mem_transGen {tasks : List HTask} :
    ∀ {path : List Int} {x p : Int}, PathCtx tasks path x → p ∈ path →
      Relation.TransGen (depEdge tasks) p x := by
  intro path
  induction path with
  | nil =>
    intro x p _ hp
    cases hp
  | cons q rest ih =>
    intro x p hctx hp
    rcases List.mem_cons.mp hp with hp | hp
    · subst hp
      exact Relation.TransGen.single hctx.1
    · exact (ih hctx.2 hp).tail hctx.1

lemma depsLoop_true_exists {rec : Int → List Int → Option (Bool × List Int)} :
    ∀ {ds visited v}, depsLoop rec ds visited = some (true, v) →
      ∃ d ∈ ds, ∃ v₀ v₁, rec d v₀ = some (true, v₁) := by
  intro ds
  induction ds with
  | nil =>
    intro visited v h
    cases h
  | cons d rest ih =>
    intro visited v h
    rw [depsLoop] at h
    rcases hr : rec d visited with - | ⟨b, v'⟩
    · rw [hr] at h
      cases h
    · rw [hr] at h
      cases b with
      | true => exact ⟨d, by simp, visited, v', hr⟩
      | false =>
        obtain ⟨d', hd', v₀, v₁, hrec⟩ := ih h
        exact ⟨d', by simp [hd'], v₀, v₁, hrec⟩

lemma hasCycleGo_true_cycle (tasks : List HTask) :
    ∀ fuel taskId visited path v, PathCtx tasks path taskId →
      hasCycleGo tasks fuel taskId visited path = some (true, v) →
      ∃ a, Relation.TransGen (depEdge tasks) a a := by
  intro fuel
  induction fuel with
  | zero =>
    intro taskId visited path v _ h
    cases h
  | succ f ih =>
    intro taskId visited path v hctx h
    rw [hasCycleGo] at h
    beta_reduce at h
    by_cases hp : taskId ∈ path
    · exact ⟨taskId, pathCtx_mem_transGen hctx hp⟩
    · rw [if_neg hp] at h
      by_cases hv : taskId ∈ visited
      · rw [if_pos hv] at h
        cases h
      · rw [if_neg hv] at h
        rcases hft : findTask tasks taskId with - | t
        · rw [hft] at h
          cases h
        · rw [hft] at h
          replace h : (match t.dependencies with
              | none => some (false, taskId :: visited)
              | some ds =>
                depsLoop (fun d w => hasCycleGo tasks f d w (taskId :: path)) ds
                  (taskId :: visited)) = some (true, v) := h
          rcases hdep : t.dependencies with - | ds
          · rw [hdep] at h
            cases h
          · rw [hdep] at h
            obtain ⟨d, hd, v₀, v₁, hrec⟩ := depsLoop_true_exists h
            have hedge : depEdge tasks taskId d := by
              simp only [depEdge, depsOfId, hft, hdep, Option.getD_some]
              exact hd
            exact ih d v₀ (taskId :: path) v₁ ⟨hedge, hctx⟩ hrec

lemma scanLoop_true_cycle (tasks : List HTask) (fuel : Nat) :
    ∀ ts visited, scanLoop tasks fuel ts visited = some true →
      ∃ a, Relation.TransGen (depEdge tasks) a a := by
  intro ts
  induction ts with
  | nil =>
    intro visited h
    cases h
  | cons t rest ih =>
    intro visited h
    rw [scanLoop] at h
    by_cases hv : t.id ∈ visited
    · rw [if_pos hv] at h
      exact ih visited h
    · rw [if_neg hv] at h
      rcases hr : hasCycleGo tasks fuel t.id visited [] with - | ⟨b, v⟩
      · rw [hr] at h
        cases h
      · rw [hr] at h
        cases b with
        | true => exact hasCycleGo_true_cycle tasks fuel t.id visited [] v trivial hr
        | false => exact ih v h

/-! ### Completeness of the cycle scan

When the DFS finishes a node without reporting a cycle, the node joins the
fully-visited (black) set; listing black nodes in reverse finishing order
gives a list in which every node's dependency successors appear strictly
later, which forbids any cycle through black nodes.  At the end of a clean
scan every task id is black, so the graph is acyclic. -/

/-- Black nodes in reverse finishing order: each head is absent from its
tail and all its dependency successors lie in its tail. -/
def TopoList (tasks : List HTask) : List Int → Prop
  | [] => True
  | x :: L => x ∉ L ∧ (∀ w, depEdge tasks x w → w ∈ L) ∧ TopoList tasks L

lemma topoList_step_mem {tasks : List HTask} :
    ∀ {L : List Int} {a w : Int}, TopoList tasks L → a ∈ L → depEdge tasks a w → w ∈ L := by
  intro L
  induction L with
  | nil =>
    intro a w _ ha
    cases ha
  | cons x L' ih =>
    intro a w hT ha hw
    rcases List.mem_cons.mp ha with ha | ha
    · subst ha
      exact List.mem_cons_of_mem _ (hT.2.1 w hw)
    · exact List.mem_cons_of_mem _ (ih hT.2.2 ha hw)

lemma topoList_reach_mem {tasks : List HTask} {L : List Int} {a b : Int}
    (hT : TopoList tasks L) (ha : a ∈ L)
    (htg : Relation.TransGen (depEdge tasks) a b) : b ∈ L := by
  induction htg with
  | single h => exact topoList_step_mem hT ha h
  | tail _ h ih => exact topoList_step_mem hT ih h

lemma topoList_no_cycle {tasks : List HTask} :
    ∀ {L : List Int}, TopoList tasks L → ∀ a ∈ L,
      ¬ Relation.TransGen (depEdge tasks) a a := by
  intro L
  induction L with
  | nil =>
    intro _ a ha
    cases ha
  | cons x L' ih =>
    intro hT a ha htg
    rcases List.mem_cons.mp ha with ha | ha
    · subst ha
      obtain ⟨c, hc, hrt⟩ := (Relation.TransGen.head'_iff).mp htg
      have hcL : c ∈ L' := hT.2.1 c hc
      rcases (Relation.reflTransGen_iff_eq_or_transGen).mp hrt with heq | htg'
      · subst heq
        exact hT.1 hcL
      · exact hT.1 (topoList_reach_mem hT.2.2 hcL htg')
    · exact ih hT.2.2 a ha htg

lemma hasCycleGo_false_not_path {tasks : List HTask} {fuel : Nat} {d : Int}
    {v path v₁ : List Int} (h : hasCycleGo tasks fuel d v path = some (false, v₁)) :
    d ∉ path := by
  intro hd
  cases fuel with
  | zero => cases h
  | succ f =>
    rw [hasCycleGo] at h
    beta_reduce at h
    rw [if_pos hd] at h
    simp at h

lemma hasCycleGo_false_inv (tasks : List HTask) :
    ∀ fuel taskId visited path v' L,
      TopoList tasks L →
      (∀ v, v ∈ visited ↔ (v ∈ L ∨ v ∈ path)) →
      (∀ v ∈ L, v ∉ path) →
      hasCycleGo tasks fuel taskId visited path = some (false, v') →
      ∃ L', TopoList tasks L' ∧
        (∀ v, v ∈ v' ↔ (v ∈ L' ∨ v ∈ path)) ∧
        (∀ v ∈ L', v ∉ path) ∧
        (∀ v ∈ L, v ∈ L') ∧ taskId ∈ v' := by
  intro fuel
  induction fuel with
  | zero =>
    intro taskId visited path v' L _ _ _ h
    cases h
  | succ f ih =>
    intro taskId visited path v' L hT hiff hdisj heq
    rw [hasCycleGo] at heq
    beta_reduce at heq
    by_cases hp : taskId ∈ path
    · rw [if_pos hp] at heq
      simp at heq
    · rw [if_neg hp] at heq
      by_cases hv : taskId ∈ visited
      · rw [if_pos hv] at heq
        simp only [Option.some.injEq, Prod.mk.injEq, true_and] at heq
        subst heq
        exact ⟨L, hT, hiff, hdisj, fun v hvL => hvL, hv⟩
      · rw [if_neg hv] at heq
        have hTnotL : taskId ∉ L := fun hL => hv ((hiff taskId).mpr (Or.inl hL))
        rcases hft : findTask tasks taskId with - | t
        · rw [hft] at heq
          simp only [Option.some.injEq, Prod.mk.injEq, true_and] at heq
          subst heq
          refine ⟨taskId :: L, ⟨hTnotL, ?_, hT⟩, ?_, ?_, ?_, by simp⟩
          · intro w hw
            simp [depEdge, depsOfId, hft] at hw
          · intro v
            have h0 := hiff v
            simp only [List.mem_cons]
            constructor
            · rintro (hvv | hvv)
              · exact Or.inl (Or.inl hvv)
              · rcases h0.mp hvv with h1 | h1
                · exact Or.inl (Or.inr h1)
                · exact Or.inr h1
            · rintro ((hvv | hvv) | hvv)
              · exact Or.inl hvv
              · exact Or.inr (h0.mpr (Or.inl hvv))
              · exact Or.inr (h0.mpr (Or.inr hvv))
          · intro v hvm
            rcases List.mem_cons.mp hvm with hvm | hvm
            · subst hvm
              exact hp
            · exact hdisj v hvm
          · exact fun v hvL => List.mem_cons_of_mem _ hvL
        · rw [hft] at heq
          replace heq : (match t.dependencies with
              | none => some (false, taskId :: visited)
              | some ds =>
                depsLoop (fun d w => hasCycleGo tasks f d w (taskId :: path)) ds
                  (taskId :: visited)) = some (false, v') := heq
          rcases hdep : t.dependencies with - | ds
          · rw [hdep] at heq
            simp only [Option.some.injEq, Prod.mk.injEq, true_and] at heq
            subst heq
            refine ⟨taskId :: L, ⟨hTnotL, ?_, hT⟩, ?_, ?_, ?_, by simp⟩
            · intro w hw
              simp [depEdge, depsOfId, hft, hdep] at hw
            · intro v
              have h0 := hiff v
              simp only [List.mem_cons]
              constructor
              · rintro (hvv | hvv)
                · exact Or.inl (Or.inl hvv)
                · rcases h0.mp hvv with h1 | h1
                  · exact Or.inl (Or.inr h1)
                  · exact Or.inr h1
              · rintro ((hvv | hvv) | hvv)
                · exact Or.inl hvv
                · exact Or.inr (h0.mpr (Or.inl hvv))
                · exact Or.inr (h0.mpr (Or.inr hvv))
            · intro v hvm
              rcases List.mem_cons.mp hvm with hvm | hvm
              · subst hvm
                exact hp
              · exact hdisj v hvm
            · exact fun v hvL => List.mem_cons_of_mem _ hvL
          · rw [hdep] at heq
            have hloop : ∀ ds₀ visited₀ v₀ L₀, TopoList tasks L₀ →
                (∀ v, v ∈ visited₀ ↔ (v ∈ L₀ ∨ v ∈ (taskId :: path))) →
                (∀ v ∈ L₀, v ∉ (taskId :: path)) →
                depsLoop (fun d w => hasCycleGo tasks f d w (taskId :: path)) ds₀ visited₀ =
                  some (false, v₀) →
                ∃ L₁, TopoList tasks L₁ ∧
                  (∀ v, v ∈ v₀ ↔ (v ∈ L₁ ∨ v ∈ (taskId :: path))) ∧
                  (∀ v ∈ L₁, v ∉ (taskId :: path)) ∧
                  (∀ v ∈ L₀, v ∈ L₁) ∧ ∀ d ∈ ds₀, d ∈ L₁ := by
              intro ds₀
              induction ds₀ with
              | nil =>
                intro visited₀ v₀ L₀ hT₀ hiff₀ hdisj₀ hrun
                replace hrun : (some (false, visited₀) : Option (Bool × List Int)) =
                    some (false, v₀) := hrun
                simp only [Option.some.injEq, Prod.mk.injEq, true_and] at hrun
                subst hrun
                exact ⟨L₀, hT₀, hiff₀, hdisj₀, fun v hvL => hvL, by simp⟩
              | cons d rest ihd =>
                intro visited₀ v₀ L₀ hT₀ hiff₀ hdisj₀ hrun
                rw [depsLoop] at hrun
                rcases hr : hasCycleGo tasks f d visited₀ (taskId :: path) with - | ⟨b, v₁⟩
                · rw [hr] at hrun
                  cases hrun
                · rw [hr] at hrun
                  cases b with
                  | true => cases hrun
                  | false =>
                    obtain ⟨L₁, hT₁, hiff₁, hdisj₁, hsub₁, hdmem⟩ :=
                      ih d visited₀ (taskId :: path) v₁ L₀ hT₀ hiff₀ hdisj₀ hr
                    have hdL₁ : d ∈ L₁ := by
                      rcases (hiff₁ d).mp hdmem with h1 | h1
                      · exact h1
                      · exact absurd h1 (hasCycleGo_false_not_path hr)
                    obtain ⟨L₂, hT₂, hiff₂, hdisj₂, hsub₂, hrest⟩ :=
                      ihd v₁ v₀ L₁ hT₁ hiff₁ hdisj₁ hrun
                    refine ⟨L₂, hT₂, hiff₂, hdisj₂, fun v hvL => hsub₂ v (hsub₁ v hvL), ?_⟩
                    intro d' hd'
                    rcases List.mem_cons.mp hd' with hd' | hd'
                    · subst hd'
                      exact hsub₂ d' hdL₁
                    · exact hrest d' hd'
            obtain ⟨L₁, hT₁, hiff₁, hdisj₁, hsub₁, hall⟩ := hloop ds (taskId :: visited) v' L
              hT
              (by
                intro v
                have h0 := hiff v
                simp only [List.mem_cons]
                constructor
                · rintro (hvv | hvv)
                  · exact Or.inr (Or.inl hvv)
                  · rcases h0.mp hvv with h1 | h1
                    · exact Or.inl h1
                    · exact Or.inr (Or.inr h1)
                · rintro (hvv | (hvv | hvv))
                  · exact Or.inr (h0.mpr (Or.inl hvv))
                  · exact Or.inl hvv
                  · exact Or.inr (h0.mpr (Or.inr hvv)))
              (by
                intro v hvL hvm
                rcases List.mem_cons.mp hvm with hvm | hvm
                · subst hvm
                  exact hv ((hiff v).mpr (Or.inl hvL))
                · exact hdisj v hvL hvm)
              heq
            have hTnotL₁ : taskId ∉ L₁ := fun hL => hdisj₁ taskId hL (by simp)
            refine ⟨taskId :: L₁, ⟨hTnotL₁, ?_, hT₁⟩, ?_, ?_, ?_, ?_⟩
            · intro w hw
              simp only [depEdge, depsOfId, hft, hdep, Option.getD_some] at hw
              exact hall w hw
            · intro v
              have h1 := hiff₁ v
              simp only [List.mem_cons] at h1 ⊢
              constructor
              · intro hvv
                rcases h1.mp hvv with h2 | h2 | h2
                · exact Or.inl (Or.inr h2)
                · exact Or.inl (Or.inl h2)
                · exact Or.inr h2
              · rintro ((hvv | hvv) | hvv)
                · exact h1.mpr (Or.inr (Or.inl hvv))
                · exact h1.mpr (Or.inl hvv)
                · exact h1.mpr (Or.inr (Or.inr hvv))
            · intro v hvm
              rcases List.mem_cons.mp hvm with hvm | hvm
              · subst hvm
                exact hp
              · intro hvp
                exact hdisj₁ v hvm (List.mem_cons_of_mem _ hvp)
            · exact fun v hvL => List.mem_cons_of_mem _ (hsub₁ v hvL)
            · exact (hiff₁ taskId).mpr (Or.inr (by simp))

lemma scanLoop_false_topo (tasks : List HTask) (fuel : Nat) :
    ∀ ts visited L, TopoList tasks L → (∀ v, v ∈ visited ↔ v ∈ L) →
      scanLoop tasks fuel ts visited = some false →
      ∃ L', TopoList tasks L' ∧ (∀ t ∈ ts, t.id ∈ L') ∧ (∀ v ∈ L, v ∈ L') := by
  intro ts
  induction ts with
  | nil =>
    intro visited L hT hiff _
    exact ⟨L, hT, by simp, fun v hvL => hvL⟩
  | cons t rest ih =>
    intro visited L hT hiff hrun
    rw [scanLoop] at hrun
    by_cases hv : t.id ∈ visited
    · obtain ⟨L', hT', hmem', hsub'⟩ := ih visited L hT hiff (by rwa [if_pos hv] at hrun)
      refine ⟨L', hT', ?_, hsub'⟩
      intro u hu
      rcases List.mem_cons.mp hu with hu | hu
      · rw [hu]
        exact hsub' t.id ((hiff t.id).mp hv)
      · exact hmem' u hu
    · rw [if_neg hv] at hrun
      rcases hr : hasCycleGo tasks fuel t.id visited [] with - | ⟨b, v₁⟩
      · rw [hr] at hrun
        cases hrun
      · rw [hr] at hrun
        cases b with
        | true => cases hrun
        | false =>
          obtain ⟨L₁, hT₁, hiff₁, -, hsub₁, hmem₁⟩ := hasCycleGo_false_inv tasks fuel t.id
            visited [] v₁ L hT (fun v => (hiff v).trans (by simp)) (by simp) hr
          have hidL₁ : t.id ∈ L₁ := by
            rcases (hiff₁ t.id).mp hmem₁ with h1 | h1
            · exact h1
            · cases h1
          obtain ⟨L', hT', hmem', hsub'⟩ := ih v₁ L₁ hT₁
            (fun v => (hiff₁ v).trans (by simp)) hrun
          refine ⟨L', hT', ?_, fun v hvL => hsub' v (hsub₁ v hvL)⟩
          intro u hu
          rcases List.mem_cons.mp hu with hu | hu
          · rw [hu]
            exact hsub' t.id hidL₁
          · exact hmem' u hu

lemma depEdge_find {tasks : List HTask} {a w : Int} (h : depEdge tasks a w) :
    a ∈ tasks.map HTask.id := by
  rcases hft : findTask tasks a with - | t
  · simp [depEdge, depsOfId, hft] at h
  · exact (findTask_id_mem hft).2

lemma scan_false_acyclic (tasks : List HTask) (fuel : Nat)
    (h : scanLoop tasks fuel tasks [] = some false) :
    ∀ a, ¬ Relation.TransGen (depEdge tasks) a a := by
  obtain ⟨L', hT', hmem', -⟩ := scanLoop_false_topo tasks fuel tasks [] [] trivial
    (by simp) h
  intro a htg
  have hedge : ∃ w, depEdge tasks a w := by
    obtain ⟨c, hc, -⟩ := (Relation.TransGen.head'_iff).mp htg
    exact ⟨c, hc⟩
  obtain ⟨w, hw⟩ := hedge
  obtain ⟨t, htm, hid⟩ := List.mem_map.mp (depEdge_find hw)
  have haL : a ∈ L' := hid ▸ hmem' t htm
  exact topoList_no_cycle hT' a haL htg

/-! ### Correctness of the memoized depth computation

`DepthIs tasks a n` is the declarative graph of the recursive depth
function: depth 1 at ids with no iterable dependencies, one plus the
maximum of the dependency depths otherwise. -/

inductive DepthIs (tasks : List HTask) : Int → Nat → Prop where
  | base (a : Int) (h : depsOfId tasks a = []) : DepthIs tasks a 1
  | node (a : Int) (ds : List Int) (ms : List Nat) (hds : depsOfId tasks a = ds)
      (hne : ¬ (ds = [])) (hlen : ms.length = ds.length)
      (hall : ∀ i (hi : i < ds.length),
        DepthIs tasks (ds.get ⟨i, hi⟩) (ms.get ⟨i, by omega⟩)) :
      DepthIs tasks a (ms.foldl Nat.max 0 + 1)

lemma depthIs_ge_one {tasks : List HTask} {a : Int} {n : Nat} (h : DepthIs tasks a n) :
    1 ≤ n := by
  cases h with
  | base _ _ => exact Nat.le_refl 1
  | node _ _ _ _ _ _ _ => omega

lemma foldl_max_acc_le (l : List Nat) : ∀ acc, acc ≤ l.foldl Nat.max acc := by
  induction l with
  | nil => intro acc; exact Nat.le_refl acc
  | cons x xs ih =>
    intro acc
    exact Nat.le_trans (Nat.le_max_left acc x) (ih (Nat.max acc x))

lemma foldl_max_mem_le (l : List Nat) : ∀ acc x, x ∈ l → x ≤ l.foldl Nat.max acc := by
  induction l with
  | nil =>
    intro acc x hx
    cases hx
  | cons y ys ih =>
    intro acc x hx
    rcases List.mem_cons.mp hx with hx | hx
    · subst hx
      exact Nat.le_trans (Nat.le_max_right acc x) (foldl_max_acc_le ys (Nat.max acc x))
    · exact ih (Nat.max acc y) x hx

lemma foldl_max_acc_or_mem (l : List Nat) :
    ∀ acc, l.foldl Nat.max acc = acc ∨ l.foldl Nat.max acc ∈ l := by
  induction l with
  | nil => intro acc; exact Or.inl rfl
  | cons x xs ih =>
    intro acc
    rcases ih (Nat.max acc x) with h | h
    · rw [List.foldl_cons, h]
      rcases Nat.le_total x acc with hm | hm
      · exact Or.inl (Nat.max_eq_left hm)
      · have hmx : Nat.max acc x = x := Nat.max_eq_right hm
        exact Or.inr (by rw [hmx]; exact List.mem_cons_self x xs)
    · exact Or.inr (List.mem_cons_of_mem x (by rwa [List.foldl_cons]))

lemma exists_depth_list {tasks : List HTask} :
    ∀ ds : List Int, (∀ d ∈ ds, ∃ n, DepthIs tasks d n) →
      ∃ ms : List Nat, ms.length = ds.length ∧
        ∀ i (hi : i < ds.length) (hi' : i < ms.length),
          DepthIs tasks (ds.get ⟨i, hi⟩) (ms.get ⟨i, hi'⟩) := by
  intro ds
  induction ds with
  | nil => exact fun _ => ⟨[], rfl, fun i hi => absurd hi (Nat.not_lt_zero i)⟩
  | cons d rest ih =>
    intro hall
    obtain ⟨n, hn⟩ := hall d (by simp)
    obtain ⟨ms, hlen, hms⟩ := ih (fun x hx => hall x (List.mem_cons_of_mem d hx))
    refine ⟨n :: ms, by simp [hlen], ?_⟩
    intro i hi hi'
    cases i with
    | zero => exact hn
    | succ j => exact hms j (Nat.lt_of_succ_lt_succ hi) (Nat.lt_of_succ_lt_succ hi')

lemma depthIs_exists {tasks : List HTask}
    (hacyc : ∀ a, ¬ Relation.TransGen (depEdge tasks) a a) :
    ∀ k a ch, PathCtx tasks ch a → countOutside tasks ch ≤ k →
      ∃ n, DepthIs tasks a n := by
  intro k
  induction k with
  | zero =>
    intro a ch hctx hcount
    rcases hds : depsOfId tasks a with - | ⟨d, rest⟩
    · exact ⟨1, DepthIs.base a hds⟩
    · exfalso
      have hmem : a ∈ tasks.map HTask.id := by
        refine depEdge_find (w := d) ?_
        rw [depEdge, hds]
        simp
      have hach : a ∉ ch := by
        intro hin
        exact hacyc a (pathCtx_mem_transGen hctx hin)
      have := countOutside_cons_lt tasks hmem hach
      omega
  | succ k ih =>
    intro a ch hctx hcount
    rcases hds : depsOfId tasks a with - | ⟨d, rest⟩
    · exact ⟨1, DepthIs.base a hds⟩
    · have hmem : a ∈ tasks.map HTask.id := by
        refine depEdge_find (w := d) ?_
        rw [depEdge, hds]
        simp
      have hach : a ∉ ch := by
        intro hin
        exact hacyc a (pathCtx_mem_transGen hctx hin)
      have hlt := countOutside_cons_lt tasks hmem hach
      have hdall : ∀ x ∈ d :: rest, ∃ n, DepthIs tasks x n := by
        intro x hx
        refine ih x (a :: ch) ⟨?_, hctx⟩ (by omega)
        rw [depEdge, hds]
        exact hx
      obtain ⟨ms, hlen, hms⟩ := exists_depth_list (d :: rest) hdall
      exact ⟨ms.foldl Nat.max 0 + 1,
        DepthIs.node a (d :: rest) ms hds (by simp) hlen
          (fun i hi => hms i hi (by omega))⟩

/-- Every memo entry records a true depth. -/
def MemoOK (tasks : List HTask) (memo : List (Int × Nat)) : Prop :=
  ∀ a n, lookupMemo memo a = some n → DepthIs tasks a n

lemma lookupMemo_cons (b : Int) (m : Nat) (memo : List (Int × Nat)) (a : Int) :
    lookupMemo ((b, m) :: memo) a =
      if b = a then some m else lookupMemo memo a := by
  by_cases h : b = a
  · simp [lookupMemo, List.find?, h]
  · simp only [lookupMemo, List.find?]
    rw [if_neg h]
    have : ((b, m).1 == a) = false := by simpa using h
    rw [this]

lemma memoOK_cons {tasks : List HTask} {memo : List (Int × Nat)} {a : Int} {n : Nat}
    (hok : MemoOK tasks memo) (hd : DepthIs tasks a n) :
    MemoOK tasks ((a, n) :: memo) := by
  intro x m hx
  rw [lookupMemo_cons] at hx
  by_cases hax : a = x
  · rw [if_pos hax] at hx
    injection hx with h
    subst h
    exact hax ▸ hd
  · rw [if_neg hax] at hx
    exact hok x m hx

lemma depthLoop_correct (tasks : List HTask)
    (rec : Int → List (Int × Nat) → Option (Nat × List (Int × Nat)))
    (hrec : ∀ a m r m', MemoOK tasks m → rec a m = some (r, m') →
      DepthIs tasks a r ∧ MemoOK tasks m') :
    ∀ ds acc memo res memo', MemoOK tasks memo →
      depthLoop rec ds acc memo = some (res, memo') →
      MemoOK tasks memo' ∧ ∃ ms : List Nat, ms.length = ds.length ∧
        (∀ i (hi : i < ds.length) (hi' : i < ms.length),
          DepthIs tasks (ds.get ⟨i, hi⟩) (ms.get ⟨i, hi'⟩)) ∧
        res = ms.foldl Nat.max acc := by
  intro ds
  induction ds with
  | nil =>
    intro acc memo res memo' hok h
    replace h : (some (acc, memo) : Option (Nat × List (Int × Nat))) = some (res, memo') := h
    simp only [Option.some.injEq, Prod.mk.injEq] at h
    obtain ⟨h1, h2⟩ := h
    subst h1
    subst h2
    exact ⟨hok, [], rfl, fun i hi => absurd hi (Nat.not_lt_zero i), rfl⟩
  | cons d rest ih =>
    intro acc memo res memo' hok h
    rw [depthLoop] at h
    rcases hr : rec d memo with - | ⟨v, m₁⟩
    · rw [hr] at h
      cases h
    · rw [hr] at h
      obtain ⟨hdv, hok₁⟩ := hrec d memo v m₁ hok hr
      obtain ⟨hok', ms, hlen, hms, hres⟩ := ih (Nat.max acc v) m₁ res memo' hok₁ h
      refine ⟨hok', v :: ms, by simp [hlen], ?_, by simpa using hres⟩
      intro i hi hi'
      cases i with
      | zero => exact hdv
      | succ j => exact hms j (Nat.lt_of_succ_lt_succ hi) (Nat.lt_of_succ_lt_succ hi')

lemma calcDepth_correct (tasks : List HTask) :
    ∀ fuel a memo r memo', MemoOK tasks memo →
      calcDepth tasks fuel a memo = some (r, memo') →
      DepthIs tasks a r ∧ MemoOK tasks memo' := by
  intro fuel
  induction fuel with
  | zero =>
    intro a memo r memo' _ h
    cases h
  | succ f ih =>
    intro a memo r memo' hok h
    rw [calcDepth] at h
    beta_reduce at h
    rcases hl : lookupMemo memo a with - | d
    · rw [hl] at h
      rcases hft : findTask tasks a with - | t
      · rw [hft] at h
        replace h : (some (1, (a, 1) :: memo) : Option (Nat × List (Int × Nat))) =
            some (r, memo') := h
        simp only [Option.some.injEq, Prod.mk.injEq] at h
        obtain ⟨h1, h2⟩ := h
        subst h1
        subst h2
        have hbase : DepthIs tasks a 1 := DepthIs.base a (by simp [depsOfId, hft])
        exact ⟨hbase, memoOK_cons hok hbase⟩
      · rw [hft] at h
        replace h : (match t.dependencies with
            | none => some (1, (a, 1) :: memo)
            | some [] => some (1, (a, 1) :: memo)
            | some (d :: ds) =>
              match depthLoop (fun x m => calcDepth tasks f x m) (d :: ds) 0 memo with
              | none => none
              | some (mx, memo') => some (mx + 1, (a, mx + 1) :: memo')) =
            some (r, memo') := h
        rcases hdep : t.dependencies with - | ds
        · rw [hdep] at h
          simp only [Option.some.injEq, Prod.mk.injEq] at h
          obtain ⟨h1, h2⟩ := h
          subst h1
          subst h2
          have hbase : DepthIs tasks a 1 := DepthIs.base a (by simp [depsOfId, hft, hdep])
          exact ⟨hbase, memoOK_cons hok hbase⟩
        · rcases hds : ds with - | ⟨d, rest⟩
          · rw [hdep, hds] at h
            replace h : (some (1, (a, 1) :: memo) : Option (Nat × List (Int × Nat))) =
                some (r, memo') := h
            simp only [Option.some.injEq, Prod.mk.injEq] at h
            obtain ⟨h1, h2⟩ := h
            subst h1
            subst h2
            have hbase : DepthIs tasks a 1 :=
              DepthIs.base a (by simp [depsOfId, hft, hdep, hds])
            exact ⟨hbase, memoOK_cons hok hbase⟩
          · rw [hdep, hds] at h
            replace h : (match depthLoop (fun x m => calcDepth tasks f x m) (d :: rest) 0 memo
                with
              | none => none
              | some (mx, m₁) => some (mx + 1, (a, mx + 1) :: m₁)) = some (r, memo') := h
            rcases hloop : depthLoop (fun x m => calcDepth tasks f x m) (d :: rest) 0 memo
              with - | ⟨mx, m₁⟩
            · rw [hloop] at h
              cases h
            · rw [hloop] at h
              simp only [Option.some.injEq, Prod.mk.injEq] at h
              obtain ⟨h1, h2⟩ := h
              subst h1
              subst h2
              obtain ⟨hok₁, ms, hlen, hms, hres⟩ := depthLoop_correct tasks _
                (fun x m r' m' hok' hx => ih x m r' m' hok' hx) (d :: rest) 0 memo mx m₁
                hok hloop
              have hnode : DepthIs tasks a (ms.foldl Nat.max 0 + 1) :=
                DepthIs.node a (d :: rest) ms (by simp [depsOfId, hft, hdep, hds])
                  (by simp) hlen (fun i hi => hms i hi (by omega))
              rw [hres]
              exact ⟨hnode, memoOK_cons hok₁ (hres ▸ hnode)⟩
    · rw [hl] at h
      replace h : (some (d, memo) : Option (Nat × List (Int × Nat))) = some (r, memo') := h
      simp only [Option.some.injEq, Prod.mk.injEq] at h
      obtain ⟨h1, h2⟩ := h
      subst h1
      subst h2
      exact ⟨hok a d hl, hok⟩

lemma depthLoop_ne_none_mem {rec : Int → List (Int × Nat) → Option (Nat × List (Int × Nat))} :
    ∀ ds : List Int, (∀ d ∈ ds, ∀ m, ¬ (rec d m = none)) →
      ∀ acc memo, ¬ (depthLoop rec ds acc memo = none) := by
  intro ds
  induction ds with
  | nil =>
    intro _ acc memo h
    cases h
  | cons d rest ih =>
    intro hall acc memo h
    rw [depthLoop] at h
    rcases hr : rec d memo with - | ⟨v, m'⟩
    · exact hall d (by simp) memo hr
    · rw [hr] at h
      exact ih (fun x hx m => hall x (List.mem_cons_of_mem d hx) m) (Nat.max acc v) m' h

lemma calcDepth_ne_none (tasks : List HTask)
    (hacyc : ∀ a, ¬ Relation.TransGen (depEdge tasks) a a) :
    ∀ fuel a memo ch, PathCtx tasks ch a → countOutside tasks ch + 1 ≤ fuel →
      ¬ (calcDepth tasks fuel a memo = none) := by
  intro fuel
  induction fuel with
  | zero =>
    intro a memo ch _ hle
    omega
  | succ f ih =>
    intro a memo ch hctx hle hcontra
    rw [calcDepth] at hcontra
    beta_reduce at hcontra
    rcases hl : lookupMemo memo a with - | d
    · rw [hl] at hcontra
      rcases hft : findTask tasks a with - | t
      · rw [hft] at hcontra
        cases hcontra
      · rw [hft] at hcontra
        replace hcontra : (match t.dependencies with
            | none => some (1, (a, 1) :: memo)
            | some [] => some (1, (a, 1) :: memo)
            | some (d :: ds) =>
              match depthLoop (fun x m => calcDepth tasks f x m) (d :: ds) 0 memo with
              | none => none
              | some (mx, memo') => some (mx + 1, (a, mx + 1) :: memo')) = none := hcontra
        rcases hdep : t.dependencies with - | ds
        · rw [hdep] at hcontra
          cases hcontra
        · rcases hds : ds with - | ⟨d, rest⟩
          · rw [hdep, hds] at hcontra
            cases hcontra
          · rw [hdep, hds] at hcontra
            replace hcontra : (match depthLoop (fun x m => calcDepth tasks f x m) (d :: rest)
                  0 memo with
              | none => none
              | some (mx, memo') => some (mx + 1, (a, mx + 1) :: memo')) = none := hcontra
            have hmem : a ∈ tasks.map HTask.id := (findTask_id_mem hft).2
            have hach : a ∉ ch := by
              intro hin
              exact hacyc a (pathCtx_mem_transGen hctx hin)
            have hlt := countOutside_cons_lt tasks hmem hach
            have hloop : ¬ (depthLoop (fun x m => calcDepth tasks f x m) (d :: rest) 0 memo
                = none) := by
              refine depthLoop_ne_none_mem (d :: rest) ?_ 0 memo
              intro x hx m
              refine ih x m (a :: ch) ⟨?_, hctx⟩ (by omega)
              rw [depEdge]
              simp only [depsOfId, hft, hdep, hds, Option.getD_some]
              exact hx
            rcases hdl : depthLoop (fun x m => calcDepth tasks f x m) (d :: rest) 0 memo
              with - | ⟨mx, m₁⟩
            · exact hloop hdl
            · rw [hdl] at hcontra
              cases hcontra
    · rw [hl] at hcontra
      cases hcontra

lemma depthsLoop_ne_none (tasks : List HTask) (fuel : Nat) :
    ∀ ts : List HTask, (∀ t ∈ ts, ∀ m, ¬ (calcDepth tasks fuel t.id m = none)) →
      ∀ memo, ¬ (depthsLoop tasks fuel ts memo = none) := by
  intro ts
  induction ts with
  | nil =>
    intro _ memo h
    cases h
  | cons t rest ih =>
    intro hall memo h
    rw [depthsLoop] at h
    rcases hr : calcDepth tasks fuel t.id memo with - | ⟨v, m'⟩
    · exact hall t (by simp) memo hr
    · rw [hr] at h
      replace h : Option.map (fun l => v :: l) (depthsLoop tasks fuel rest m') = none := h
      rcases hrest : depthsLoop tasks fuel rest m' with - | out
      · exact ih (fun x hx m => hall x (List.mem_cons_of_mem t hx) m) m' hrest
      · rw [hrest] at h
        simp at h

lemma depthsLoop_correct (tasks : List HTask) (fuel : Nat) :
    ∀ ts memo out, MemoOK tasks memo → depthsLoop tasks fuel ts memo = some out →
      out.length = ts.length ∧
      ∀ i (hi : i < ts.length) (hi' : i < out.length),
        DepthIs tasks ((ts.get ⟨i, hi⟩).id) (out.get ⟨i, hi'⟩) := by
  intro ts
  induction ts with
  | nil =>
    intro memo out _ h
    replace h : (some [] : Option (List Nat)) = some out := h
    injection h with h
    subst h
    exact ⟨rfl, fun i hi => absurd hi (Nat.not_lt_zero i)⟩
  | cons t rest ih =>
    intro memo out hok h
    rw [depthsLoop] at h
    rcases hr : calcDepth tasks fuel t.id memo with - | ⟨v, m'⟩
    · rw [hr] at h
      cases h
    · rw [hr] at h
      replace h : Option.map (fun l => v :: l) (depthsLoop tasks fuel rest m') = some out := h
      rcases hrest : depthsLoop tasks fuel rest m' with - | out'
      · rw [hrest] at h
        cases h
      · rw [hrest] at h
        replace h : (some (v :: out') : Option (List Nat)) = some out := h
        injection h with h
        subst h
        obtain ⟨hdv, hok'⟩ := calcDepth_correct tasks fuel t.id memo v m' hok hr
        obtain ⟨hlen, hall⟩ := ih m' out' hok' hrest
        refine ⟨by simp [hlen], ?_⟩
        intro i hi hi'
        cases i with
        | zero => exact hdv
        | succ j => exact hall j (Nat.lt_of_succ_lt_succ hi) (Nat.lt_of_succ_lt_succ hi')

lemma depthIs_chain_exists {tasks : List HTask} :
    ∀ {a : Int} {n : Nat}, DepthIs tasks a n →
      ∃ c, IsChain tasks c ∧ c.head? = some a ∧ c.length = n := by
  intro a n h
  induction h with
  | base a _ => exact ⟨[a], trivial, rfl, rfl⟩
  | node a ds ms hds hne hlen hall ih =>
    have hmsne : ¬ (ms = []) := by
      intro hnil
      rw [hnil] at hlen
      exact hne (List.length_eq_zero.mp hlen.symm)
    rcases foldl_max_acc_or_mem ms 0 with h0 | hmem
    · exfalso
      rcases hms0 : ms with - | ⟨m₀, ms'⟩
      · exact hmsne hms0
      · have h1 : 1 ≤ m₀ := by
          have hi0 : 0 < ds.length := by
            rw [← hlen, hms0]
            exact Nat.succ_pos _
          have := depthIs_ge_one (hall 0 hi0)
          simpa [hms0] using this
        have h2 : m₀ ≤ ms.foldl Nat.max 0 :=
          foldl_max_mem_le ms 0 m₀ (by rw [hms0]; exact List.mem_cons_self _ _)
        omega
    · obtain ⟨⟨i, hi'⟩, hget⟩ := List.mem_iff_get.mp hmem
      have hi : i < ds.length := by omega
      obtain ⟨c, hch, hhead, hclen⟩ := ih i hi
      rcases hc : c with - | ⟨d₀, c'⟩
      · rw [hc] at hhead
        cases hhead
      · rw [hc] at hhead
        have hd₀ : d₀ = ds.get ⟨i, hi⟩ := by
          injection hhead

        refine ⟨a :: d₀ :: c', ⟨?_, hc ▸ hch⟩, rfl, ?_⟩
        · rw [depEdge, hds, hd₀]
          exact List.get_mem ds i hi
        · have : (d₀ :: c').length = ms.foldl Nat.max 0 := by
            rw [← hc, hclen, hget]
          simp only [List.length_cons] at this ⊢
          omega

lemma chain_le_depth {tasks : List HTask} :
    ∀ c, IsChain tasks c → ∀ a n, c.head? = some a → DepthIs tasks a n →
      c.length ≤ n := by
  intro c
  induction c with
  | nil =>
    intro h
    cases h
  | cons x cs ih =>
    intro hch a n hhead hd
    have hxa : x = a := by injection hhead
    subst hxa
    cases cs with
    | nil => exact depthIs_ge_one hd
    | cons y cs' =>
      obtain ⟨hedge, hch'⟩ := hch
      cases hd with
      | base _ hds =>
        rw [depEdge, hds] at hedge
        cases hedge
      | node _ ds ms hds hne hlen hall =>
        have hy : y ∈ ds := by
          rw [depEdge, hds] at hedge
          exact hedge
        obtain ⟨⟨i, hi⟩, hget⟩ := List.mem_iff_get.mp hy
        have hi' : i < ms.length := by omega
        have hdy : DepthIs tasks y (ms.get ⟨i, hi'⟩) := hget ▸ hall i hi
        have hle := ih hch' y (ms.get ⟨i, hi'⟩) rfl hdy
        have hmax : ms.get ⟨i, hi'⟩ ≤ ms.foldl Nat.max 0 :=
          foldl_max_mem_le ms 0 _ (List.get_mem ms i hi')
        simp only [List.length_cons] at hle ⊢
        omega

/-- C4: `calculateHierarchyDepth` terminates on every finite task list (its
fuel never runs out); a task list containing a dependency cycle yields 1;
an acyclic task list yields the length of the longest dependency chain
starting at a task (an upper bound on all chains, attained by some chain
when the list is nonempty); and the example
`[{id:1,deps:[]},{id:2,deps:[1]},{id:3,deps:[2]}]` yields 3. -/
theorem C4_calculateHierarchyDepth_spec (tasks : List HTask) :
    (∃ n, calculateHierarchyDepth tasks = some n) ∧
    ((∃ a, Relation.TransGen (depEdge tasks) a a) →
      calculateHierarchyDepth tasks = some 1) ∧
    ((∀ a, ¬ Relation.TransGen (depEdge tasks) a a) →
      ∃ n, calculateHierarchyDepth tasks = some n ∧
        (∀ t ∈ tasks, ∀ c, IsChain tasks c → c.head? = some t.id → c.length ≤ n) ∧
        (¬ (tasks = []) →
          ∃ t ∈ tasks, ∃ c, IsChain tasks c ∧ c.head? = some t.id ∧ c.length = n)) ∧
    calculateHierarchyDepth [⟨1, some []⟩, ⟨2, some [1]⟩, ⟨3, some [2]⟩] = some 3 := by
  by_cases hemp : tasks = []
  · subst hemp
    refine ⟨⟨0, rfl⟩, ?_, ?_, by decide⟩
    · rintro ⟨a, htg⟩
      obtain ⟨c, hc, -⟩ := (Relation.TransGen.head'_iff).mp htg
      rw [depEdge] at hc
      simp [depsOfId, findTask] at hc
    · intro _
      refine ⟨0, rfl, ?_, ?_⟩
      · intro t ht
        cases ht
      · intro hne
        exact absurd rfl hne
  · have hne : ¬ (tasks.isEmpty = true) := by
      simpa [List.isEmpty_iff] using hemp
    have hfuel : (tasks.map HTask.id).dedup.length + 1 ≤ tasks.length + 1 := by
      have h1 : (tasks.map HTask.id).dedup.length ≤ (tasks.map HTask.id).length :=
        (List.dedup_sublist _).length_le
      simpa using h1
    rcases hscan : scanLoop tasks (tasks.length + 1) tasks [] with - | b
    · exact absurd hscan (scanLoop_ne_none tasks (tasks.length + 1) hfuel tasks [])
    · cases b with
      | true =>
        have hval : calculateHierarchyDepth tasks = some 1 := by
          rw [calculateHierarchyDepth, if_neg hne, hscan]
        have hcyc : ∃ a, Relation.TransGen (depEdge tasks) a a :=
          scanLoop_true_cycle tasks (tasks.length + 1) tasks [] hscan
        refine ⟨⟨1, hval⟩, fun _ => hval, ?_, by decide⟩
        intro hacyc
        obtain ⟨a, ha⟩ := hcyc
        exact absurd ha (hacyc a)
      | false =>
        have hacyc := scan_false_acyclic tasks (tasks.length + 1) hscan
        have hcd : ∀ t ∈ tasks, ∀ m, ¬ (calcDepth tasks (tasks.length + 1) t.id m = none) := by
          intro t ht m
          refine calcDepth_ne_none tasks hacyc (tasks.length + 1) t.id m [] trivial ?_
          have h1 : countOutside tasks [] ≤ (tasks.map HTask.id).dedup.length := by
            simpa [countOutside] using
              List.length_filter_le (fun i => decide (i ∉ ([] : List Int)))
                (tasks.map HTask.id).dedup
          omega
        rcases hdl : depthsLoop tasks (tasks.length + 1) tasks [] with - | out
        · exact absurd hdl (depthsLoop_ne_none tasks (tasks.length + 1) tasks hcd [])
        · have hval : calculateHierarchyDepth tasks = some (listMax out) := by
            rw [calculateHierarchyDepth, if_neg hne, hscan, hdl]
          have hmemoOK : MemoOK tasks [] := by
            intro a n h
            cases h
          obtain ⟨hlen, hall⟩ := depthsLoop_correct tasks (tasks.length + 1) tasks [] out
            hmemoOK hdl
          refine ⟨⟨listMax out, hval⟩, ?_, ?_, by decide⟩
          · rintro ⟨a, ha⟩
            exact absurd ha (hacyc a)
          · intro _
            refine ⟨listMax out, hval, ?_, ?_⟩
            · intro t ht c hc hhead
              obtain ⟨⟨i, hi⟩, hget⟩ := List.mem_iff_get.mp ht
              have hi' : i < out.length := by omega
              have hd : DepthIs tasks t.id (out.get ⟨i, hi'⟩) := by
                have := hall i hi hi'
                rwa [hget] at this
              have h1 := chain_le_depth c hc t.id _ hhead hd
              have h2 : out.get ⟨i, hi'⟩ ≤ listMax out :=
                foldl_max_mem_le out 0 _ (List.get_mem out i hi')
              omega
            · intro _
              have houtne : ¬ (out = []) := by
                intro h0
                rw [h0] at hlen
                exact hemp (List.length_eq_zero.mp hlen.symm)
              rcases foldl_max_acc_or_mem out 0 with h0 | hmem
              · exfalso
                rcases hout : out with - | ⟨o₀, out'⟩
                · exact houtne hout
                · have hi0 : 0 < tasks.length := by
                    rw [← hlen, hout]
                    exact Nat.succ_pos _
                  have hi0' : 0 < out.length := by
                    rw [hout]
                    exact Nat.succ_pos _
                  have h1 := depthIs_ge_one (hall 0 hi0 hi0')
                  have h2 : out.get ⟨0, hi0'⟩ ≤ out.foldl Nat.max 0 :=
                    foldl_max_mem_le out 0 _ (List.get_mem out 0 hi0')
                  omega
              · obtain ⟨⟨i, hi'⟩, hget⟩ := List.mem_iff_get.mp hmem
                have hi : i < tasks.length := by omega
                obtain ⟨c, hch, hhead, hclen⟩ :=
                  depthIs_chain_exists (hall i hi hi')
                refine ⟨tasks.get ⟨i, hi⟩, List.get_mem tasks i hi, c, hch, hhead, ?_⟩
                rw [hclen, hget]
                rfl

/-- C4 witness: the specification theorem applied at the claim's example
list (acyclic, longest chain 3 → 1 → …) and at a two-cycle. -/
theorem C4_calculateHierarchyDepth_spec_witness :
    calculateHierarchyDepth [⟨1, some []⟩, ⟨2, some [1]⟩, ⟨3, some [2]⟩] = some 3 ∧
    calculateHierarchyDepth [⟨1, some [2]⟩, ⟨2, some [1]⟩] = some 1 := by
  constructor
  · exact (C4_calculateHierarchyDepth_spec []).2.2.2
  · exact (C4_calculateHierarchyDepth_spec [⟨1, some [2]⟩, ⟨2, some [1]⟩]).2.1
      ⟨1, Relation.TransGen.head (b := 2)
        (show (2 : Int) ∈ depsOfId [⟨1, some [2]⟩, ⟨2, some [1]⟩] 1 by decide)
        (Relation.TransGen.single
          (show (1 : Int) ∈ depsOfId [⟨1, some [2]⟩, ⟨2, some [1]⟩] 2 by decide))⟩

/-! ## Two-pass sync engine (create-issues.ts)

Pass 1 creates or finds one issue per task (matching by exact title plus the
unique marker in the body, against a cache of the remote issue list that is
extended as issues are created); pass 2 re-renders each issue's dependency
and required-by sections and issues a remote body-update call iff the
re-rendered body differs from the last-fetched body.  Label updates
(`updateBlockedStatus`) and sub-issue linking are separate remote operations
that never call the issue-update endpoint, so the emitted update calls are
exactly pass 2's.  `yaml.stringify` is abstracted as the function parameter
`ys`, and the complexity report map as `cm`.  Subtasks are modelled with the
two fields the engine reads (`id`, `description`). -/

/-- The metadata object passed to `yaml.stringify` by `buildIssueBody`. -/
structure TaskMeta where
  id : Int
  title : String
  dependencies : Option (List Int)
  priority : Option String
  status : Option String
  complexity : Option Int
deriving DecidableEq

structure SubtaskLite where
  id : Int
  description : String
deriving DecidableEq

structure STask where
  id : Int
  title : String
  description : String := ""
  details : Option String := none
  testStrategy : Option String := none
  priority : Option String := none
  dependencies : Option (List Int) := none
  status : Option String := none
  subtasks : Option (List SubtaskLite) := none
deriving DecidableEq

/-- A remote issue as the engine reads it (number, title, body, state). -/
structure RIssue where
  number : Int
  title : String
  body : String
  state : String
deriving DecidableEq

def UNIQUE_MARKER : String := "<!-- created-by-taskmaster-script -->"

/-- `tasks.filter(t => t.dependencies?.find(d => d === task.id))`: note the
JS truthiness of the found value — a found dependency id of 0 is falsy. -/
def requiredBy (tasks : List STask) (t : STask) : List STask :=
  tasks.filter (fun u =>
    match u.dependencies with
    | none => false
    | some ds =>
      match ds.find? (fun d => d == t.id) with
      | none => false
      | some v => !(v == 0))

/-- `generateYAMLFrontMatter`: the metadata object built by `buildIssueBody`
always carries its six keys, so the empty-metadata early return of the
source never fires here. -/
def generateYAMLFrontMatter (ys : TaskMeta → String) (m : TaskMeta) : String :=
  "---\n" ++ ys m ++ "---\n"

/-- `buildIssueBody` from create-issues.ts, section by section.  The
`requiredBy` field the caller assigns before building is recomputed in
place. -/
def buildIssueBody (ys : TaskMeta → String) (cm : Int → Option Int)
    (tasks : List STask) (t : STask) : String :=
  let metadata : TaskMeta := ⟨t.id, t.title, t.dependencies, t.priority, t.status, cm t.id⟩
  let b0 := generateYAMLFrontMatter ys metadata
  let b1 := b0 ++ (match t.details with
    | some d => if d = "" then "" else "## Details\n" ++ d ++ "\n\n"
    | none => "")
  let b2 := b1 ++ (match t.testStrategy with
    | some s => if s = "" then "" else "## Test Strategy\n" ++ s ++ "\n\n"
    | none => "")
  let b3 := b2 ++ (match t.subtasks with
    | some subs =>
      if subs.isEmpty then ""
      else "## Subtasks\n" ++
        String.intercalate "\n" (subs.map (fun s => "- " ++ s.description)) ++ "\n\n"
    | none => "")
  let b4 := b3 ++ (match t.dependencies with
    | some ds => if ds.isEmpty then "" else "## Dependencies\n\n\n"
    | none => "")
  let meta1 := (match t.status with
    | some s => if s = "" then "" else "- Status: `" ++ s ++ "`\n"
    | none => "")
  let meta2 := meta1 ++ (match t.priority with
    | some p => if p = "" then "" else "- Priority: `" ++ p ++ "`\n"
    | none => "")
  let meta3 := meta2 ++ (match cm t.id with
    | some c => if c = 0 then "" else "- Complexity: `" ++ toString c ++ " / 10`\n"
    | none => "")
  let meta4 := meta3 ++ (if (requiredBy tasks t).isEmpty then "" else "- Required By:\n\n")
  let b5 := b4 ++ (if meta4 = "" then "" else "## Meta\n" ++ meta4 ++ "\n\n")
  b5 ++ UNIQUE_MARKER

/-! The lazy regex `/pre[\s\S]+?term/` used by the two body-rewriting
helpers: find the leftmost start where the literal `pat` matches and at
least one character followed by the literal `term` can be consumed, consume
minimally, and splice in the replacement. -/

/-- Consume at least one character, then the earliest occurrence of `term`;
return the suffix after it. -/
def lazyConsume (term : List Char) : List Char → Option (List Char)
  | [] => none
  | _ :: rest =>
    if term.isPrefixOf rest then some (rest.drop term.length) else lazyConsume term rest

def replaceLazyAux (pat term repl : List Char) : List Char → Option (List Char)
  | [] => none
  | c :: rest =>
    if pat.isPrefixOf (c :: rest) then
      match lazyConsume term ((c :: rest).drop pat.length) with
      | some post => some (repl ++ post)
      | none => (replaceLazyAux pat term repl rest).map (fun l => c :: l)
    else (replaceLazyAux pat term repl rest).map (fun l => c :: l)

/-- `body.replace(/pat[\s\S]+?term/, repl)` (first match; body unchanged
when there is no match). -/
def replaceFirstLazy (pat term repl : String) (s : String) : String :=
  match replaceLazyAux pat.data term.data repl.data s.data with
  | some l => String.mk l
  | none => s

/-- The fields of a bound issue that the section renderers read. -/
structure IssueRef where
  number : Int
  state : String
deriving DecidableEq

/-- `updateIssueWithDependencies` from create-issues.ts. -/
def updateIssueWithDependencies (body : String) (dependencyIssues : List IssueRef) :
    String :=
  if dependencyIssues.isEmpty then body
  else
    let depSection := "## Dependencies\n" ++
      String.intercalate "\n" (dependencyIssues.map (fun i =>
        "- [" ++ (if i.state = "closed" then "x" else " ") ++ "] #" ++ toString i.number)) ++
      "\n\n"
    replaceFirstLazy "## Dependencies" "\n\n" depSection body

/-- `updateBodyWithRequiredBy` from create-issues.ts. -/
def updateBodyWithRequiredBy (body : String) (requiredByIssues : List IssueRef) : String :=
  if requiredByIssues.isEmpty then body
  else
    let requiredBySection := "- Required By:\n" ++
      String.intercalate "\n" (requiredByIssues.map (fun i =>
        "   - [" ++ (if i.state = "closed" then "x" else " ") ++ "] #" ++ toString i.number)) ++
      "\n"
    replaceFirstLazy "- Required By:" "\n\n" requiredBySection body

/-- The match predicate of `findExistingIssue`: exact title, non-null
nonempty body containing the unique marker. -/
def issueMatches (title : String) (i : RIssue) : Bool :=
  i.title == title && !(i.body == "") && strContains i.body UNIQUE_MARKER

def findExistingIssue (cache : List RIssue) (title : String) : Option RIssue :=
  cache.find? (issueMatches title)

/-- The pass-1 binding of a task: its issue's number, state and last-fetched
body, plus the freshly built `expectedBody`. -/
structure Bound where
  number : Int
  state : String
  fetchedBody : String
  expectedBody : String
deriving DecidableEq

/-- Pass 1 (`createOrGetIssue` over all tasks): find by title and marker in
the evolving cache, else create with the next fresh issue number (the cache
mirrors the remote issue list, so creations append to it). -/
def pass1 (ys : TaskMeta → String) (cm : Int → Option Int) (allTasks : List STask) :
    List STask → List (Int × Bound) → List RIssue → Int →
      List (Int × Bound) × List RIssue × Int
  | [], idx, cache, next => (idx, cache, next)
  | t :: rest, idx, cache, next =>
    let body := buildIssueBody ys cm allTasks t
    match findExistingIssue cache t.title with
    | some iss =>
      pass1 ys cm allTasks rest ((t.id, ⟨iss.number, iss.state, iss.body, body⟩) :: idx)
        cache next
    | none =>
      pass1 ys cm allTasks rest ((t.id, ⟨next, "open", body, body⟩) :: idx)
        (cache ++ [⟨next, t.title, body, "open"⟩]) (next + 1)

/-- `idToIssue[id]` (later assignments shadow earlier ones). -/
def lookupId (idx : List (Int × Bound)) (a : Int) : Option Bound :=
  (idx.find? (fun p => p.1 == a)).map (fun p => p.2)

def toRef (b : Bound) : IssueRef := ⟨b.number, b.state⟩

/-- The pass-2 re-rendered body of one task's issue (starting from the
`expectedBody` that pass 1 stored on the binding). -/
def pass2Body (tasks : List STask)
    (idx : List (Int × Bound)) (t : STask) (b : Bound) : String :=
  let depIssues := (t.dependencies.getD []).filterMap (fun d => (lookupId idx d).map toRef)
  let e1 := updateIssueWithDependencies b.expectedBody depIssues
  let reqByIssues := (requiredBy tasks t).filterMap (fun u => (lookupId idx u.id).map toRef)
  updateBodyWithRequiredBy e1 reqByIssues

/-- Pass 2: one update call per task whose re-rendered body differs
byte-for-byte from the last-fetched body. -/
def pass2 (tasks : List STask)
    (idx : List (Int × Bound)) : List STask → List (Int × String)
  | [] => []
  | t :: rest =>
    match lookupId idx t.id with
    | none => pass2 tasks idx rest
    | some b =>
      let e2 := pass2Body tasks idx t b
      (if e2 = b.fetchedBody then [] else [(b.number, e2)]) ++ pass2 tasks idx rest

def applyUpdate (rs : List RIssue) (n : Int) (newBody : String) : List RIssue :=
  rs.map (fun i => if i.number = n then { i with body := newBody } else i)

def applyUpdates (rs : List RIssue) : List (Int × String) → List RIssue
  | [] => rs
  | (n, b) :: rest => applyUpdates (applyUpdate rs n b) rest

/-- One run of the sync engine: the issued update calls and the resulting
remote issue list.  `next₀` is the next fresh issue number the tracker
assigns. -/
def runSync (ys : TaskMeta → String) (cm : Int → Option Int) (tasks : List STask)
    (remote : List RIssue) (next₀ : Int) : List (Int × String) × List RIssue :=
  let r := pass1 ys cm tasks tasks [] remote next₀
  let us := pass2 tasks r.1 tasks
  (us, applyUpdates r.2.1 us)

example :
    replaceFirstLazy "## Dependencies" "\n\n" "## Dependencies\nX\n\n"
      "A\n## Dependencies\n\n\nrest" = "A\n## Dependencies\nX\n\nrest" := by decide

example :
    updateIssueWithDependencies "head\n## Dependencies\n\n\n## Meta\nm\n\nZ"
      [⟨4, "open"⟩, ⟨5, "closed"⟩] =
    "head\n## Dependencies\n- [ ] #4\n- [x] #5\n\n## Meta\nm\n\nZ" := by decide

/-! ### Marker survival through the lazy-regex body rewrites

Both body rewrites terminate their match at a literal `"\n\n"`; the unique
marker contains no newline and sits at the end of every body the engine
builds, so the suffix spliced back after a replacement always still carries
the whole marker. -/

/-- A body that ends with the unique marker. -/
def hasMarkerSuffix (s : String) : Prop :=
  ∃ w, s.data = w ++ UNIQUE_MARKER.data

lemma lazyConsume_none_of_no_newline (l : List Char) (h : ∀ c ∈ l, c ≠ '\n') :
    lazyConsume ['\n', '\n'] l = none := by
  induction l with
  | nil => rfl
  | cons c rest ih =>
    rw [lazyConsume]
    have hpre : (List.isPrefixOf ['\n', '\n'] rest) = false := by
      cases hp : List.isPrefixOf ['\n', '\n'] rest
      · rfl
      · exfalso
        have hnl : '\n' ∈ rest :=
          (List.isPrefixOf_iff_prefix.mp hp).subset (by simp)
        exact h '\n' (List.mem_cons_of_mem _ hnl) rfl
    rw [hpre]
    simp only [Bool.false_eq_true, if_false]
    exact ih (fun x hx => h x (List.mem_cons_of_mem _ hx))

lemma replaceLazyAux_none_of_no_newline (pat repl : List Char) (l : List Char)
    (h : ∀ c ∈ l, c ≠ '\n') :
    replaceLazyAux pat ['\n', '\n'] repl l = none := by
  induction l with
  | nil => rfl
  | cons c rest ih =>
    have hrec : replaceLazyAux pat ['\n', '\n'] repl rest = none :=
      ih (fun x hx => h x (List.mem_cons_of_mem _ hx))
    have hlc : lazyConsume ['\n', '\n'] ((c :: rest).drop pat.length) = none :=
      lazyConsume_none_of_no_newline _ (fun x hx => h x (List.mem_of_mem_drop hx))
    rw [replaceLazyAux]
    by_cases hp : (List.isPrefixOf pat (c :: rest)) = true
    · rw [if_pos hp, hlc, hrec] ; rfl
    · rw [if_neg hp, hrec] ; rfl

lemma lazyConsume_marker (m : List Char) (hm : '\n' ∉ m) :
    ∀ (u post : List Char),
      lazyConsume ['\n', '\n'] (u ++ m) = some post → ∃ w, post = w ++ m := by
  intro u
  induction u with
  | nil =>
    intro post h
    rw [List.nil_append] at h
    rw [lazyConsume_none_of_no_newline m (fun c hc he => hm (he ▸ hc))] at h
    cases h
  | cons c u1 ih =>
    intro post h
    rw [List.cons_append, lazyConsume] at h
    by_cases hp : (List.isPrefixOf ['\n', '\n'] (u1 ++ m)) = true
    · rw [if_pos hp] at h
      have hpost : post = (u1 ++ m).drop 2 := (Option.some.inj h).symm
      match u1, hp with
      | [], hp =>
        exfalso
        rcases List.isPrefixOf_iff_prefix.mp hp with ⟨t, ht⟩
        rw [List.nil_append] at ht
        exact hm (ht ▸ (by simp : '\n' ∈ '\n' :: '\n' :: t))
      | [a], hp =>
        exfalso
        rcases List.isPrefixOf_iff_prefix.mp hp with ⟨t, ht⟩
        have hm2 : '\n' :: t = m := by
          have := List.tail_eq_of_cons_eq ht
          simpa using this
        exact hm (hm2 ▸ List.mem_cons_self '\n' t)
      | a :: b :: u2, hp =>
        exact ⟨u2, by rw [hpost] ; rfl⟩
    · rw [if_neg hp] at h
      exact ih post h

lemma replaceLazyAux_marker (pat repl : List Char) (m : List Char) (hm : '\n' ∉ m) :
    ∀ (u r : List Char),
      replaceLazyAux pat ['\n', '\n'] repl (u ++ m) = some r → ∃ w, r = w ++ m := by
  intro u
  induction u with
  | nil =>
    intro r h
    rw [List.nil_append,
      replaceLazyAux_none_of_no_newline pat repl m (fun c hc he => hm (he ▸ hc))] at h
    cases h
  | cons c u1 ih =>
    intro r h
    rw [List.cons_append, replaceLazyAux] at h
    have hmap : ∀ (q : Option (List Char)), q.map (fun l => c :: l) = some r →
        (∃ r1, q = some r1 ∧ r = c :: r1) := by
      intro q hq
      rcases Option.map_eq_some'.mp hq with ⟨r1, hr1, hc⟩
      exact ⟨r1, hr1, hc.symm⟩
    by_cases hp : (List.isPrefixOf pat (c :: (u1 ++ m))) = true
    · rw [if_pos hp] at h
      cases hlc : lazyConsume ['\n', '\n'] ((c :: (u1 ++ m)).drop pat.length) with
      | some post =>
        rw [hlc] at h
        have hr : r = repl ++ post := (Option.some.inj h).symm
        have hdrop : (c :: (u1 ++ m)).drop pat.length =
            ((c :: u1).drop pat.length) ++ m.drop (pat.length - (c :: u1).length) := by
          rw [← List.cons_append, List.drop_append_eq_append_drop]
        by_cases hk : pat.length ≤ (c :: u1).length
        · have hz : pat.length - (c :: u1).length = 0 := Nat.sub_eq_zero_of_le hk
          rw [hz, List.drop_zero] at hdrop
          rw [hdrop] at hlc
          rcases lazyConsume_marker m hm _ post hlc with ⟨w, hw⟩
          exact ⟨repl ++ w, by rw [hr, hw, List.append_assoc]⟩
        · exfalso
          have hnil : (c :: u1).drop pat.length = [] :=
            List.drop_eq_nil_of_le (Nat.le_of_not_le hk)
          rw [hnil, List.nil_append] at hdrop
          rw [hdrop] at hlc
          rw [lazyConsume_none_of_no_newline _
            (fun x hx he => hm (he ▸ List.mem_of_mem_drop hx))] at hlc
          cases hlc
      | none =>
        rw [hlc] at h
        rcases hmap _ h with ⟨r1, hr1, hc⟩
        rcases ih r1 hr1 with ⟨w, hw⟩
        exact ⟨c :: w, by rw [hc, hw] ; rfl⟩
    · rw [if_neg hp] at h
      rcases hmap _ h with ⟨r1, hr1, hc⟩
      rcases ih r1 hr1 with ⟨w, hw⟩
      exact ⟨c :: w, by rw [hc, hw] ; rfl⟩

lemma marker_no_newline : '\n' ∉ UNIQUE_MARKER.data := by decide

lemma replaceFirstLazy_hasMarker (pat repl : String) (s : String)
    (h : hasMarkerSuffix s) : hasMarkerSuffix (replaceFirstLazy pat "\n\n" repl s) := by
  rcases h with ⟨v, hv⟩
  rw [replaceFirstLazy]
  have hterm : ("\n\n" : String).data = ['\n', '\n'] := rfl
  cases hrep : replaceLazyAux pat.data ("\n\n" : String).data repl.data s.data with
  | some l =>
    rw [hterm] at hrep
    rw [hv] at hrep
    rcases replaceLazyAux_marker pat.data repl.data UNIQUE_MARKER.data
      marker_no_newline v l hrep with ⟨w, hw⟩
    exact ⟨w, hw⟩
  | none => exact ⟨v, hv⟩

lemma buildIssueBody_hasMarker (ys : TaskMeta → String) (cm : Int → Option Int)
    (tasks : List STask) (t : STask) :
    hasMarkerSuffix (buildIssueBody ys cm tasks t) := by
  rw [buildIssueBody]
  exact ⟨_, String.data_append _ _⟩

lemma updateIssueWithDependencies_hasMarker (body : String) (deps : List IssueRef)
    (h : hasMarkerSuffix body) :
    hasMarkerSuffix (updateIssueWithDependencies body deps) := by
  rw [updateIssueWithDependencies]
  by_cases hd : deps.isEmpty = true
  · rw [if_pos hd] ; exact h
  · rw [if_neg hd] ; exact replaceFirstLazy_hasMarker _ _ _ h

lemma updateBodyWithRequiredBy_hasMarker (body : String) (reqs : List IssueRef)
    (h : hasMarkerSuffix body) :
    hasMarkerSuffix (updateBodyWithRequiredBy body reqs) := by
  rw [updateBodyWithRequiredBy]
  by_cases hd : reqs.isEmpty = true
  · rw [if_pos hd] ; exact h
  · rw [if_neg hd] ; exact replaceFirstLazy_hasMarker _ _ _ h

lemma pass2Body_hasMarker (tasks : List STask) (idx : List (Int × Bound))
    (t : STask) (b : Bound) (h : hasMarkerSuffix b.expectedBody) :
    hasMarkerSuffix (pass2Body tasks idx t b) :=
  updateBodyWithRequiredBy_hasMarker _ _
    (updateIssueWithDependencies_hasMarker _ _ h)

lemma hasMarker_ne_empty (s : String) (h : hasMarkerSuffix s) : (s == "") = false := by
  rcases h with ⟨w, hw⟩
  rw [beq_eq_false_iff_ne]
  intro he
  rw [he] at hw
  have hw2 : w ++ UNIQUE_MARKER.data = [] := hw.symm
  exact absurd (List.append_eq_nil.mp hw2).2 (by decide)

lemma hasMarker_contains (s : String) (h : hasMarkerSuffix s) :
    strContains s UNIQUE_MARKER = true := by
  rcases h with ⟨w, hw⟩
  exact decide_eq_true ⟨w, [], by rw [List.append_nil, ← hw]⟩

lemma issueMatches_of_marker (title : String) (i : RIssue)
    (h : hasMarkerSuffix i.body) : issueMatches title i = (i.title == title) := by
  rw [issueMatches, hasMarker_ne_empty _ h, hasMarker_contains _ h]
  simp

/-- Components of a successful `issueMatches`. -/
lemma issueMatches_true (title : String) (i : RIssue)
    (h : issueMatches title i = true) :
    i.title = title ∧ (i.body == "") = false ∧ strContains i.body UNIQUE_MARKER = true := by
  rw [issueMatches] at h
  simp only [Bool.and_eq_true] at h
  rcases h with ⟨⟨h1, h2⟩, h3⟩
  refine ⟨beq_iff_eq.mp h1, ?_, h3⟩
  cases hb : (i.body == "")
  · rfl
  · rw [hb] at h2 ; cases h2

/-! ### Batched update application and id-map lookups -/

/-- `find?` only depends on the predicate's values on the list's members. -/
lemma find?_congr_mem {α : Type} (p q : α → Bool) :
    ∀ l : List α, (∀ a ∈ l, p a = q a) → l.find? p = l.find? q := by
  intro l
  induction l with
  | nil => intro _ ; rfl
  | cons a rest ih =>
    intro h
    have h1 := h a (List.mem_cons_self a rest)
    have h2 := ih (fun x hx => h x (List.mem_cons_of_mem _ hx))
    rw [List.find?_cons, List.find?_cons, h1, h2]

lemma find?_of_fst_not_mem (us : List (Int × String)) (n : Int)
    (hn : n ∉ us.map Prod.fst) :
    us.find? (fun p => p.1 == n) = none := by
  rw [List.find?_eq_none]
  intro p hp hb
  exact hn (List.mem_map.mpr ⟨p, hp, beq_iff_eq.mp hb⟩)

lemma find?_of_fst_nodup (n : Int) (s : String) :
    ∀ us : List (Int × String), (us.map Prod.fst).Nodup → (n, s) ∈ us →
      us.find? (fun p => p.1 == n) = some (n, s) := by
  intro us
  induction us with
  | nil => intro _ hmem ; cases hmem
  | cons q rest ih =>
    intro hn hmem
    rw [List.map_cons] at hn
    have hn1 := (List.nodup_cons.mp hn).1
    have hn2 := (List.nodup_cons.mp hn).2
    rcases List.mem_cons.mp hmem with he | hr
    · rw [List.find?_cons]
      have hh : (q.1 == n) = true := by rw [← he] ; exact beq_self_eq_true n
      rw [hh, ← he]
    · have hq : q.1 ≠ n := by
        intro he2
        exact hn1 (he2 ▸ List.mem_map.mpr ⟨(n, s), hr, rfl⟩)
      rw [List.find?_cons, beq_eq_false_iff_ne.mpr hq]
      exact ih hn2 hr

/-- The cumulative effect of a batch of body updates (with pairwise distinct
target numbers) on a single issue. -/
def updOf (us : List (Int × String)) (i : RIssue) : RIssue :=
  match us.find? (fun p => p.1 == i.number) with
  | some p => { i with body := p.2 }
  | none => i

lemma applyUpdates_eq_map :
    ∀ (us : List (Int × String)) (rs : List RIssue), (us.map Prod.fst).Nodup →
      applyUpdates rs us = rs.map (updOf us) := by
  intro us
  induction us with
  | nil =>
    intro rs _
    rw [applyUpdates]
    symm
    have h1 : rs.map (updOf []) = rs.map (fun a => a) :=
      List.map_congr_left (fun i _ => rfl)
    rw [h1, List.map_id']
  | cons q rest ih =>
    intro rs hn
    obtain ⟨n, b⟩ := q
    rw [List.map_cons] at hn
    have hn1 := (List.nodup_cons.mp hn).1
    have hn2 := (List.nodup_cons.mp hn).2
    rw [applyUpdates, ih _ hn2, applyUpdate, List.map_map]
    apply List.map_congr_left
    intro i _
    obtain ⟨inum, ititle, ibody, istate⟩ := i
    show updOf rest (if inum = n then ⟨inum, ititle, b, istate⟩
        else ⟨inum, ititle, ibody, istate⟩) =
      updOf ((n, b) :: rest) ⟨inum, ititle, ibody, istate⟩
    by_cases hi : inum = n
    · subst hi
      rw [if_pos rfl]
      simp only [updOf, List.find?_cons]
      have hfr : rest.find? (fun p => p.1 == inum) = none :=
        find?_of_fst_not_mem rest inum hn1
      simp [hfr]
    · rw [if_neg hi]
      simp only [updOf, List.find?_cons]
      have hhead : ((n, b).1 == inum) = false :=
        beq_eq_false_iff_ne.mpr (fun he => hi he.symm)
      simp [hhead]

lemma nodup_filterMap_fst {α : Type} (g : α → Option (Int × String)) :
    ∀ l : List α, l.Nodup →
      (∀ a ∈ l, ∀ b ∈ l, ∀ n s s', g a = some (n, s) → g b = some (n, s') → a = b) →
      ((l.filterMap g).map Prod.fst).Nodup := by
  intro l
  induction l with
  | nil => intro _ _ ; simp
  | cons a rest ih =>
    intro hnd hinj
    have hnd1 := (List.nodup_cons.mp hnd).1
    have hnd2 := (List.nodup_cons.mp hnd).2
    have hrest := ih hnd2 (fun x hx y hy =>
      hinj x (List.mem_cons_of_mem _ hx) y (List.mem_cons_of_mem _ hy))
    cases hg : g a with
    | none => simp only [List.filterMap_cons, hg] ; exact hrest
    | some p =>
      obtain ⟨n, s⟩ := p
      simp only [List.filterMap_cons, hg, List.map_cons]
      rw [List.nodup_cons]
      refine ⟨?_, hrest⟩
      intro hmem
      rcases List.mem_map.mp hmem with ⟨q, hq, hfst⟩
      rcases List.mem_filterMap.mp hq with ⟨x, hx, hgx⟩
      obtain ⟨n1, s1⟩ := q
      have hn1 : n1 = n := hfst
      rw [hn1] at hgx
      have hax : a = x := hinj a (List.mem_cons_self a rest) x
        (List.mem_cons_of_mem _ hx) n s s1 hg hgx
      exact hnd1 (hax ▸ hx)

lemma lookupId_cons (a : Int) (b : Bound) (idx : List (Int × Bound)) (x : Int) :
    lookupId ((a, b) :: idx) x = if a = x then some b else lookupId idx x := by
  by_cases h : a = x
  · subst h
    simp [lookupId, List.find?_cons]
  · simp [lookupId, List.find?_cons, h]

/-- Processing further tasks never disturbs the binding of an id outside
their id set. -/
lemma pass1_lookup_frozen (ys : TaskMeta → String) (cm : Int → Option Int)
    (allTasks : List STask) :
    ∀ (ts : List STask) (idx : List (Int × Bound)) (cache : List RIssue) (next : Int)
      (a : Int), a ∉ ts.map STask.id →
      lookupId (pass1 ys cm allTasks ts idx cache next).1 a = lookupId idx a := by
  intro ts
  induction ts with
  | nil => intro idx cache next a _ ; rfl
  | cons t rest ih =>
    intro idx cache next a ha
    have ha1 : a ≠ t.id := fun he => ha (he ▸ List.mem_cons_self _ _)
    have ha2 : a ∉ rest.map STask.id := fun hm => ha (List.mem_cons_of_mem _ hm)
    rw [pass1]
    cases hf : findExistingIssue cache t.title with
    | some iss =>
      have h1 := ih ((t.id, ⟨iss.number, iss.state, iss.body,
        buildIssueBody ys cm allTasks t⟩) :: idx) cache next a ha2
      rw [lookupId_cons, if_neg (fun he => ha1 he.symm)] at h1
      exact h1
    | none =>
      have h1 := ih ((t.id, ⟨next, "open", buildIssueBody ys cm allTasks t,
        buildIssueBody ys cm allTasks t⟩) :: idx)
        (cache ++ [⟨next, t.title, buildIssueBody ys cm allTasks t, "open"⟩]) (next + 1) a ha2
      rw [lookupId_cons, if_neg (fun he => ha1 he.symm)] at h1
      exact h1

/-- `pass2` as a `filterMap`: the per-task optional update call. -/
def pass2F (tasks : List STask) (idx : List (Int × Bound)) (t : STask) :
    Option (Int × String) :=
  match lookupId idx t.id with
  | none => none
  | some b =>
    if pass2Body tasks idx t b = b.fetchedBody then none
    else some (b.number, pass2Body tasks idx t b)

lemma pass2_eq_filterMap (tasks : List STask) (idx : List (Int × Bound)) :
    ∀ ts : List STask, pass2 tasks idx ts = ts.filterMap (pass2F tasks idx) := by
  intro ts
  induction ts with
  | nil => rfl
  | cons t rest ih =>
    cases hl : lookupId idx t.id with
    | none =>
      simp only [pass2, pass2F, hl, ih, List.filterMap_cons]
    | some b =>
      by_cases he : pass2Body tasks idx t b = b.fetchedBody
      · simp only [pass2, pass2F, hl, List.filterMap_cons, if_pos he, ih, List.nil_append]
      · simp only [pass2, pass2F, hl, List.filterMap_cons, if_neg he, ih,
          List.singleton_append]

/-! ### Pass-1 invariants -/

/-- Pass 1 only ever appends to the issue cache, and every appended entry is
an issue freshly created for one of the processed tasks. -/
lemma pass1_cache_ext (ys : TaskMeta → String) (cm : Int → Option Int)
    (allTasks : List STask) :
    ∀ (ts : List STask) (idx : List (Int × Bound)) (cache : List RIssue) (next : Int),
      ∃ ext, (pass1 ys cm allTasks ts idx cache next).2.1 = cache ++ ext ∧
        ∀ i ∈ ext, ∃ t, t ∈ ts ∧ i.title = t.title ∧
          i.body = buildIssueBody ys cm allTasks t := by
  intro ts
  induction ts with
  | nil =>
    intro idx cache next
    exact ⟨[], (List.append_nil cache).symm, fun i hi => absurd hi (List.not_mem_nil i)⟩
  | cons t rest ih =>
    intro idx cache next
    cases hf : findExistingIssue cache t.title with
    | some iss =>
      have hstep : pass1 ys cm allTasks (t :: rest) idx cache next =
          pass1 ys cm allTasks rest ((t.id, ⟨iss.number, iss.state, iss.body,
            buildIssueBody ys cm allTasks t⟩) :: idx) cache next := by
        rw [pass1, hf]
      rw [hstep]
      rcases ih ((t.id, ⟨iss.number, iss.state, iss.body,
          buildIssueBody ys cm allTasks t⟩) :: idx) cache next with ⟨ext, hext, hP⟩
      refine ⟨ext, hext, fun i hi => ?_⟩
      rcases hP i hi with ⟨t1, ht1, hT, hB⟩
      exact ⟨t1, List.mem_cons_of_mem _ ht1, hT, hB⟩
    | none =>
      have hstep : pass1 ys cm allTasks (t :: rest) idx cache next =
          pass1 ys cm allTasks rest ((t.id, ⟨next, "open", buildIssueBody ys cm allTasks t,
            buildIssueBody ys cm allTasks t⟩) :: idx)
            (cache ++ [⟨next, t.title, buildIssueBody ys cm allTasks t, "open"⟩])
            (next + 1) := by
        rw [pass1, hf]
      rw [hstep]
      rcases ih ((t.id, ⟨next, "open", buildIssueBody ys cm allTasks t,
          buildIssueBody ys cm allTasks t⟩) :: idx)
          (cache ++ [⟨next, t.title, buildIssueBody ys cm allTasks t, "open"⟩])
          (next + 1) with ⟨ext, hext, hP⟩
      refine ⟨⟨next, t.title, buildIssueBody ys cm allTasks t, "open"⟩ :: ext, ?_, ?_⟩
      · rw [hext, List.append_assoc]
        rfl
      · intro i hi
        rcases List.mem_cons.mp hi with he | hm
        · exact ⟨t, List.mem_cons_self _ _, by rw [he], by rw [he]⟩
        · rcases hP i hm with ⟨t1, ht1, hT, hB⟩
          exact ⟨t1, List.mem_cons_of_mem _ ht1, hT, hB⟩

/-- Pass 1 keeps cache issue numbers pairwise distinct and below the next
fresh number. -/
lemma pass1_cache_spec (ys : TaskMeta → String) (cm : Int → Option Int)
    (allTasks : List STask) :
    ∀ (ts : List STask) (idx : List (Int × Bound)) (cache : List RIssue) (next : Int),
      ((cache.map RIssue.number).Nodup) → (∀ i ∈ cache, i.number < next) →
      (((pass1 ys cm allTasks ts idx cache next).2.1.map RIssue.number).Nodup) ∧
      (∀ i ∈ (pass1 ys cm allTasks ts idx cache next).2.1,
        i.number < (pass1 ys cm allTasks ts idx cache next).2.2) := by
  intro ts
  induction ts with
  | nil =>
    intro idx cache next hcn hcb
    exact ⟨hcn, hcb⟩
  | cons t rest ih =>
    intro idx cache next hcn hcb
    cases hf : findExistingIssue cache t.title with
    | some iss =>
      have hstep : pass1 ys cm allTasks (t :: rest) idx cache next =
          pass1 ys cm allTasks rest ((t.id, ⟨iss.number, iss.state, iss.body,
            buildIssueBody ys cm allTasks t⟩) :: idx) cache next := by
        rw [pass1, hf]
      rw [hstep]
      exact ih _ cache next hcn hcb
    | none =>
      have hstep : pass1 ys cm allTasks (t :: rest) idx cache next =
          pass1 ys cm allTasks rest ((t.id, ⟨next, "open", buildIssueBody ys cm allTasks t,
            buildIssueBody ys cm allTasks t⟩) :: idx)
            (cache ++ [⟨next, t.title, buildIssueBody ys cm allTasks t, "open"⟩])
            (next + 1) := by
        rw [pass1, hf]
      rw [hstep]
      have hcn2 : (((cache ++ ([⟨next, t.title, buildIssueBody ys cm allTasks t, "open"⟩] :
          List RIssue)).map RIssue.number).Nodup) := by
        rw [List.map_append, List.nodup_append]
        refine ⟨hcn, List.nodup_singleton _, ?_⟩
        intro x hx hy
        rcases List.mem_map.mp hx with ⟨i, hi, hxi⟩
        have hxn : x = next := by simpa using hy
        have hlt := hcb i hi
        omega
      have hcb2 : ∀ i ∈ cache ++ ([⟨next, t.title, buildIssueBody ys cm allTasks t, "open"⟩] :
          List RIssue), i.number < next + 1 := by
        intro i hi
        rcases List.mem_append.mp hi with hi1 | hi2
        · have := hcb i hi1 ; omega
        · have hie : i = ⟨next, t.title, buildIssueBody ys cm allTasks t, "open"⟩ := by
            simpa using hi2
          rw [hie] ; show next < next + 1 ; omega
      exact ih _ _ _ hcn2 hcb2

/-- The next fresh number never decreases across pass 1. -/
lemma pass1_next_mono (ys : TaskMeta → String) (cm : Int → Option Int)
    (allTasks : List STask) :
    ∀ (ts : List STask) (idx : List (Int × Bound)) (cache : List RIssue) (next : Int),
      next ≤ (pass1 ys cm allTasks ts idx cache next).2.2 := by
  intro ts
  induction ts with
  | nil => intro idx cache next ; exact le_refl next
  | cons t rest ih =>
    intro idx cache next
    cases hf : findExistingIssue cache t.title with
    | some iss =>
      have hstep : pass1 ys cm allTasks (t :: rest) idx cache next =
          pass1 ys cm allTasks rest ((t.id, ⟨iss.number, iss.state, iss.body,
            buildIssueBody ys cm allTasks t⟩) :: idx) cache next := by
        rw [pass1, hf]
      rw [hstep]
      exact ih _ cache next
    | none =>
      have hstep : pass1 ys cm allTasks (t :: rest) idx cache next =
          pass1 ys cm allTasks rest ((t.id, ⟨next, "open", buildIssueBody ys cm allTasks t,
            buildIssueBody ys cm allTasks t⟩) :: idx)
            (cache ++ [⟨next, t.title, buildIssueBody ys cm allTasks t, "open"⟩])
            (next + 1) := by
        rw [pass1, hf]
      rw [hstep]
      have := ih ((t.id, ⟨next, "open", buildIssueBody ys cm allTasks t,
          buildIssueBody ys cm allTasks t⟩) :: idx)
          (cache ++ [⟨next, t.title, buildIssueBody ys cm allTasks t, "open"⟩]) (next + 1)
      omega

/-- After pass 1, every task id is bound, and its binding agrees field by
field with the issue that a title search over the final cache finds. -/
lemma pass1_bind_spec (ys : TaskMeta → String) (cm : Int → Option Int)
    (allTasks : List STask) :
    ∀ (ts : List STask) (idx : List (Int × Bound)) (cache : List RIssue) (next : Int),
      ((ts.map STask.id).Nodup) →
      ∀ t ∈ ts, ∃ b iss,
        lookupId (pass1 ys cm allTasks ts idx cache next).1 t.id = some b ∧
        findExistingIssue (pass1 ys cm allTasks ts idx cache next).2.1 t.title = some iss ∧
        iss.number = b.number ∧ iss.state = b.state ∧ iss.body = b.fetchedBody ∧
        b.expectedBody = buildIssueBody ys cm allTasks t := by
  intro ts
  induction ts with
  | nil => intro idx cache next _ t ht ; cases ht
  | cons t0 rest ih =>
    intro idx cache next hids t ht
    rw [List.map_cons] at hids
    have hids1 := (List.nodup_cons.mp hids).1
    have hids2 := (List.nodup_cons.mp hids).2
    cases hf : findExistingIssue cache t0.title with
    | some iss0 =>
      have hstep : pass1 ys cm allTasks (t0 :: rest) idx cache next =
          pass1 ys cm allTasks rest ((t0.id, ⟨iss0.number, iss0.state, iss0.body,
            buildIssueBody ys cm allTasks t0⟩) :: idx) cache next := by
        rw [pass1, hf]
      rw [hstep]
      rcases List.mem_cons.mp ht with he | hm
      · subst he
        refine ⟨⟨iss0.number, iss0.state, iss0.body, buildIssueBody ys cm allTasks t⟩,
          iss0, ?_, ?_, rfl, rfl, rfl, rfl⟩
        · rw [pass1_lookup_frozen ys cm allTasks rest _ cache next t.id hids1,
            lookupId_cons, if_pos rfl]
        · rcases pass1_cache_ext ys cm allTasks rest ((t.id, ⟨iss0.number, iss0.state,
              iss0.body, buildIssueBody ys cm allTasks t⟩) :: idx) cache next with
            ⟨ext, hext, _⟩
          rw [hext, findExistingIssue, List.find?_append]
          have hc : cache.find? (issueMatches t.title) = some iss0 := hf
          rw [hc]
          rfl
      · exact ih _ cache next hids2 t hm
    | none =>
      have hstep : pass1 ys cm allTasks (t0 :: rest) idx cache next =
          pass1 ys cm allTasks rest ((t0.id, ⟨next, "open", buildIssueBody ys cm allTasks t0,
            buildIssueBody ys cm allTasks t0⟩) :: idx)
            (cache ++ [⟨next, t0.title, buildIssueBody ys cm allTasks t0, "open"⟩])
            (next + 1) := by
        rw [pass1, hf]
      rw [hstep]
      rcases List.mem_cons.mp ht with he | hm
      · subst he
        refine ⟨⟨next, "open", buildIssueBody ys cm allTasks t,
            buildIssueBody ys cm allTasks t⟩,
          ⟨next, t.title, buildIssueBody ys cm allTasks t, "open"⟩, ?_, ?_, rfl, rfl, rfl, rfl⟩
        · rw [pass1_lookup_frozen ys cm allTasks rest _ _ _ t.id hids1,
            lookupId_cons, if_pos rfl]
        · rcases pass1_cache_ext ys cm allTasks rest ((t.id, ⟨next, "open",
              buildIssueBody ys cm allTasks t, buildIssueBody ys cm allTasks t⟩) :: idx)
              (cache ++ [⟨next, t.title, buildIssueBody ys cm allTasks t, "open"⟩])
              (next + 1) with ⟨ext, hext, _⟩
          rw [hext, List.append_assoc, findExistingIssue, List.find?_append]
          have hc : cache.find? (issueMatches t.title) = none := hf
          rw [hc, Option.none_or, List.find?_append]
          have hnew : ([⟨next, t.title, buildIssueBody ys cm allTasks t, "open"⟩] :
              List RIssue).find? (issueMatches t.title) =
              some ⟨next, t.title, buildIssueBody ys cm allTasks t, "open"⟩ := by
            rw [List.find?_cons]
            have hmt : issueMatches t.title
                ⟨next, t.title, buildIssueBody ys cm allTasks t, "open"⟩ = true := by
              rw [issueMatches_of_marker _ _ (buildIssueBody_hasMarker ys cm allTasks t)]
              exact beq_self_eq_true t.title
            rw [hmt]
          rw [hnew]
          rfl
      · exact ih _ _ _ hids2 t hm

/-- When every task's title already matches a cached issue, pass 1 binds each
task to exactly that issue and creates nothing. -/
lemma pass1_all_found (ys : TaskMeta → String) (cm : Int → Option Int)
    (allTasks : List STask) :
    ∀ (ts : List STask) (idx : List (Int × Bound)) (cache : List RIssue) (next : Int),
      ((ts.map STask.id).Nodup) →
      (∀ t ∈ ts, (findExistingIssue cache t.title).isSome) →
      ∀ t ∈ ts, ∃ iss,
        findExistingIssue cache t.title = some iss ∧
        lookupId (pass1 ys cm allTasks ts idx cache next).1 t.id =
          some ⟨iss.number, iss.state, iss.body, buildIssueBody ys cm allTasks t⟩ := by
  intro ts
  induction ts with
  | nil => intro idx cache next _ _ t ht ; cases ht
  | cons t0 rest ih =>
    intro idx cache next hids hfound t ht
    rw [List.map_cons] at hids
    have hids1 := (List.nodup_cons.mp hids).1
    have hids2 := (List.nodup_cons.mp hids).2
    rcases Option.isSome_iff_exists.mp (hfound t0 (List.mem_cons_self _ _)) with ⟨iss0, hf⟩
    have hstep : pass1 ys cm allTasks (t0 :: rest) idx cache next =
        pass1 ys cm allTasks rest ((t0.id, ⟨iss0.number, iss0.state, iss0.body,
          buildIssueBody ys cm allTasks t0⟩) :: idx) cache next := by
      rw [pass1, hf]
    rw [hstep]
    rcases List.mem_cons.mp ht with he | hm
    · subst he
      refine ⟨iss0, hf, ?_⟩
      rw [pass1_lookup_frozen ys cm allTasks rest _ cache next t.id hids1,
        lookupId_cons, if_pos rfl]
    · exact ih _ cache next hids2 (fun u hu => hfound u (List.mem_cons_of_mem _ hu)) t hm

lemma updOf_number (us : List (Int × String)) (i : RIssue) :
    (updOf us i).number = i.number := by
  rw [updOf]
  cases h : us.find? (fun p => p.1 == i.number) <;> rfl

lemma updOf_state (us : List (Int × String)) (i : RIssue) :
    (updOf us i).state = i.state := by
  rw [updOf]
  cases h : us.find? (fun p => p.1 == i.number) <;> rfl

lemma updOf_title (us : List (Int × String)) (i : RIssue) :
    (updOf us i).title = i.title := by
  rw [updOf]
  cases h : us.find? (fun p => p.1 == i.number) <;> rfl

lemma pass2Body_congr (tasks : List STask) (idx1 idx2 : List (Int × Bound))
    (t : STask) (b1 b2 : Bound) (hb : b1.expectedBody = b2.expectedBody)
    (hl : ∀ a : Int, (lookupId idx1 a).map toRef = (lookupId idx2 a).map toRef) :
    pass2Body tasks idx1 t b1 = pass2Body tasks idx2 t b2 := by
  simp only [pass2Body]
  rw [hb, List.filterMap_congr (fun d _ => hl d),
    List.filterMap_congr (fun (u : STask) _ => hl u.id)]

/-- A title search over a cache whose bodies were rewritten (match-status
preserved pointwise) finds the rewritten version of the original hit. -/
lemma findExistingIssue_map (cache : List RIssue) (f : RIssue → RIssue) (title : String)
    (hinv : ∀ i ∈ cache, issueMatches title (f i) = issueMatches title i) :
    findExistingIssue (cache.map f) title = (findExistingIssue cache title).map f := by
  rw [findExistingIssue, findExistingIssue, List.find?_map]
  have h := find?_congr_mem (issueMatches title ∘ f) (issueMatches title) cache
    (fun i hi => hinv i hi)
  rw [h]

lemma pass2F_none (tasks : List STask) (idx : List (Int × Bound)) (t : STask)
    (h : lookupId idx t.id = none) : pass2F tasks idx t = none := by
  rw [pass2F, h]

lemma pass2F_some (tasks : List STask) (idx : List (Int × Bound)) (t : STask) (b : Bound)
    (h : lookupId idx t.id = some b) :
    pass2F tasks idx t = if pass2Body tasks idx t b = b.fetchedBody then none
      else some (b.number, pass2Body tasks idx t b) := by
  rw [pass2F, h]

lemma pass2F_some_inv (tasks : List STask) (idx : List (Int × Bound)) (t : STask)
    (n : Int) (s : String) (h : pass2F tasks idx t = some (n, s)) :
    ∃ b, lookupId idx t.id = some b ∧ n = b.number ∧ s = pass2Body tasks idx t b ∧
      pass2Body tasks idx t b ≠ b.fetchedBody := by
  cases hl : lookupId idx t.id with
  | none => rw [pass2F_none tasks idx t hl] at h ; cases h
  | some b =>
    rw [pass2F_some tasks idx t b hl] at h
    by_cases he : pass2Body tasks idx t b = b.fetchedBody
    · rw [if_pos he] at h ; cases h
    · rw [if_neg he] at h
      have hp := Option.some.inj h
      exact ⟨b, rfl, (congrArg Prod.fst hp).symm, (congrArg Prod.snd hp).symm, he⟩

/-- Every emitted pass-2 update call comes from a bound task whose
re-rendered body differs from the fetched one. -/
lemma pass2_mem (tasks : List STask) (idx : List (Int × Bound)) (ts : List STask)
    (p : Int × String) (hp : p ∈ pass2 tasks idx ts) :
    ∃ t ∈ ts, ∃ b, lookupId idx t.id = some b ∧
      p = (b.number, pass2Body tasks idx t b) ∧
      pass2Body tasks idx t b ≠ b.fetchedBody := by
  rw [pass2_eq_filterMap] at hp
  rcases List.mem_filterMap.mp hp with ⟨t, ht, hF⟩
  obtain ⟨n, s⟩ := p
  rcases pass2F_some_inv tasks idx t n s hF with ⟨b, hl, hn, hs, hne⟩
  refine ⟨t, ht, b, hl, ?_, hne⟩
  rw [hn, hs]

lemma pass2_mem_intro (tasks : List STask) (idx : List (Int × Bound)) (ts : List STask)
    (t : STask) (ht : t ∈ ts) (b : Bound) (hl : lookupId idx t.id = some b)
    (hne : pass2Body tasks idx t b ≠ b.fetchedBody) :
    (b.number, pass2Body tasks idx t b) ∈ pass2 tasks idx ts := by
  rw [pass2_eq_filterMap]
  refine List.mem_filterMap.mpr ⟨t, ht, ?_⟩
  rw [pass2F_some tasks idx t b hl, if_neg hne]

/-- Rewriting an issue body to another marker-carrying body does not change
whether the issue matches any title. -/
lemma issueMatches_body_congr (title : String) (i : RIssue) (nb : String)
    (h1 : (i.body == "") = false) (h2 : strContains i.body UNIQUE_MARKER = true)
    (h3 : hasMarkerSuffix nb) :
    issueMatches title { i with body := nb } = issueMatches title i := by
  obtain ⟨inum, ititle, ibody, istate⟩ := i
  have h1b : (ibody == "") = false := h1
  have h2b : strContains ibody UNIQUE_MARKER = true := h2
  rw [issueMatches, issueMatches]
  show ((ititle == title) && !(nb == "") && strContains nb UNIQUE_MARKER) =
    ((ititle == title) && !(ibody == "") && strContains ibody UNIQUE_MARKER)
  rw [h1b, h2b, hasMarker_ne_empty _ h3, hasMarker_contains _ h3]

/-- Distinct tasks are bound to distinct issue numbers by pass 1 (titles are
unique per run, cache issue numbers are unique, created numbers are fresh). -/
lemma run1_bound_inj (ys : TaskMeta → String) (cm : Int → Option Int)
    (tasks : List STask) (remote : List RIssue) (next₀ : Int)
    (htitles : (tasks.map STask.title).Nodup)
    (hids : (tasks.map STask.id).Nodup)
    (hnums : (remote.map RIssue.number).Nodup)
    (hfresh : ∀ i ∈ remote, i.number < next₀) :
    ∀ t1 ∈ tasks, ∀ t2 ∈ tasks, ∀ b1 b2 : Bound,
      lookupId (pass1 ys cm tasks tasks [] remote next₀).1 t1.id = some b1 →
      lookupId (pass1 ys cm tasks tasks [] remote next₀).1 t2.id = some b2 →
      b1.number = b2.number → t1 = t2 := by
  intro t1 ht1 t2 ht2 b1 b2 hb1 hb2 hnn
  have hcn1 := (pass1_cache_spec ys cm tasks tasks [] remote next₀ hnums hfresh).1
  rcases pass1_bind_spec ys cm tasks tasks [] remote next₀ hids t1 ht1 with
    ⟨b1', iss1, hl1, hf1, hn1, _, _, _⟩
  rcases pass1_bind_spec ys cm tasks tasks [] remote next₀ hids t2 ht2 with
    ⟨b2', iss2, hl2, hf2, hn2, _, _, _⟩
  rw [hb1] at hl1
  rw [hb2] at hl2
  have he1 : b1 = b1' := Option.some.inj hl1
  have he2 : b2 = b2' := Option.some.inj hl2
  have hm1 : iss1 ∈ (pass1 ys cm tasks tasks [] remote next₀).2.1 :=
    List.mem_of_find?_eq_some hf1
  have hm2 : iss2 ∈ (pass1 ys cm tasks tasks [] remote next₀).2.1 :=
    List.mem_of_find?_eq_some hf2
  have hiss : iss1 = iss2 :=
    List.inj_on_of_nodup_map hcn1 hm1 hm2 (by rw [hn1, hn2, ← he1, ← he2, hnn])
  have ht1t : iss1.title = t1.title := (issueMatches_true _ _ (List.find?_some hf1)).1
  have ht2t : iss2.title = t2.title := (issueMatches_true _ _ (List.find?_some hf2)).1
  exact List.inj_on_of_nodup_map htitles ht1 ht2 (by rw [← ht1t, ← ht2t, hiss])

/-- The pass-2 update calls of a run target pairwise distinct issue numbers. -/
lemma run1_us_fst_nodup (ys : TaskMeta → String) (cm : Int → Option Int)
    (tasks : List STask) (remote : List RIssue) (next₀ : Int)
    (htitles : (tasks.map STask.title).Nodup)
    (hids : (tasks.map STask.id).Nodup)
    (hnums : (remote.map RIssue.number).Nodup)
    (hfresh : ∀ i ∈ remote, i.number < next₀) :
    ((pass2 tasks (pass1 ys cm tasks tasks [] remote next₀).1 tasks).map
      Prod.fst).Nodup := by
  rw [pass2_eq_filterMap]
  refine nodup_filterMap_fst _ tasks (List.Nodup.of_map _ hids) ?_
  intro a ha b hb n s s' hga hgb
  rcases pass2F_some_inv _ _ _ _ _ hga with ⟨ba, hla, hna, _, _⟩
  rcases pass2F_some_inv _ _ _ _ _ hgb with ⟨bb, hlb, hnb, _, _⟩
  exact run1_bound_inj ys cm tasks remote next₀ htitles hids hnums hfresh
    a ha b hb ba bb hla hlb (by rw [← hna, ← hnb])

/-- After one full run, a second run over the unchanged task graph finds
every issue again, re-renders the same bodies, and issues no update call. -/
lemma run1_idempotent (ys : TaskMeta → String) (cm : Int → Option Int)
    (tasks : List STask) (remote : List RIssue) (next₀ : Int)
    (htitles : (tasks.map STask.title).Nodup)
    (hids : (tasks.map STask.id).Nodup)
    (hnums : (remote.map RIssue.number).Nodup)
    (hfresh : ∀ i ∈ remote, i.number < next₀) :
    ∀ next₁,
      (runSync ys cm tasks (runSync ys cm tasks remote next₀).2 next₁).1 = [] := by
  intro next₁
  have hbind := pass1_bind_spec ys cm tasks tasks [] remote next₀ hids
  have hcn1 := (pass1_cache_spec ys cm tasks tasks [] remote next₀ hnums hfresh).1
  have hinj := run1_bound_inj ys cm tasks remote next₀ htitles hids hnums hfresh
  have hndup := run1_us_fst_nodup ys cm tasks remote next₀ htitles hids hnums hfresh
  have hrem2 : (runSync ys cm tasks remote next₀).2 =
      applyUpdates (pass1 ys cm tasks tasks [] remote next₀).2.1
        (pass2 tasks (pass1 ys cm tasks tasks [] remote next₀).1 tasks) := rfl
  have hmap : (runSync ys cm tasks remote next₀).2 =
      (pass1 ys cm tasks tasks [] remote next₀).2.1.map
        (updOf (pass2 tasks (pass1 ys cm tasks tasks [] remote next₀).1 tasks)) := by
    rw [hrem2, applyUpdates_eq_map _ _ hndup]
  have hmarkerB : ∀ t ∈ tasks, ∀ b : Bound,
      lookupId (pass1 ys cm tasks tasks [] remote next₀).1 t.id = some b →
      hasMarkerSuffix b.expectedBody := by
    intro t ht b hb
    rcases hbind t ht with ⟨b', iss, hl, _, _, _, _, hexp⟩
    rw [hb] at hl
    have hbb : b = b' := Option.some.inj hl
    rw [hbb, hexp]
    exact buildIssueBody_hasMarker ys cm tasks t
  have hinv_pt : ∀ i ∈ (pass1 ys cm tasks tasks [] remote next₀).2.1, ∀ τ : String,
      issueMatches τ
        (updOf (pass2 tasks (pass1 ys cm tasks tasks [] remote next₀).1 tasks) i) =
      issueMatches τ i := by
    intro i hi τ
    rw [updOf]
    cases hfind : (pass2 tasks (pass1 ys cm tasks tasks [] remote next₀).1 tasks).find?
        (fun p => p.1 == i.number) with
    | none => rfl
    | some p =>
      have hpm := List.mem_of_find?_eq_some hfind
      have hpn0 := List.find?_some hfind
      have hpn : p.1 = i.number := beq_iff_eq.mp hpn0
      rcases pass2_mem tasks _ tasks p hpm with ⟨t', ht', b', hl', hpe, hne⟩
      rcases hbind t' ht' with ⟨b'', iss', hl'', hf', hn', hs', hb', hexp'⟩
      rw [hl'] at hl''
      have hbb : b' = b'' := Option.some.inj hl''
      have hm' := List.mem_of_find?_eq_some hf'
      have hp1 : p.1 = b'.number := congrArg Prod.fst hpe
      have hnum : iss'.number = i.number := by rw [hn', ← hbb, ← hp1, hpn]
      have hii : iss' = i := List.inj_on_of_nodup_map hcn1 hm' hi hnum
      have hmi := issueMatches_true t'.title iss' (List.find?_some hf')
      rw [hii] at hmi
      have hmS : hasMarkerSuffix
          (pass2Body tasks (pass1 ys cm tasks tasks [] remote next₀).1 t' b') :=
        pass2Body_hasMarker _ _ _ _ (hmarkerB t' ht' b' hl')
      have hp2 : p.2 = pass2Body tasks (pass1 ys cm tasks tasks [] remote next₀).1 t' b' :=
        congrArg Prod.snd hpe
      exact issueMatches_body_congr τ i p.2 hmi.2.1 hmi.2.2 (by rw [hp2] ; exact hmS)
  have hfind2 : ∀ τ : String,
      findExistingIssue (runSync ys cm tasks remote next₀).2 τ =
        (findExistingIssue (pass1 ys cm tasks tasks [] remote next₀).2.1 τ).map
          (updOf (pass2 tasks (pass1 ys cm tasks tasks [] remote next₀).1 tasks)) := by
    intro τ
    rw [hmap]
    exact findExistingIssue_map _ _ τ (fun i hi => hinv_pt i hi τ)
  have hfound2 : ∀ t ∈ tasks,
      (findExistingIssue (runSync ys cm tasks remote next₀).2 t.title).isSome := by
    intro t ht
    rcases hbind t ht with ⟨b, iss, _, hf, _, _, _, _⟩
    rw [hfind2, hf]
    rfl
  have hall2 := pass1_all_found ys cm tasks tasks []
    (runSync ys cm tasks remote next₀).2 next₁ hids hfound2
  have hagree : ∀ a : Int,
      (lookupId (pass1 ys cm tasks tasks [] remote next₀).1 a).map toRef =
        (lookupId (pass1 ys cm tasks tasks []
          (runSync ys cm tasks remote next₀).2 next₁).1 a).map toRef := by
    intro a
    by_cases hmem : a ∈ tasks.map STask.id
    · rcases List.mem_map.mp hmem with ⟨t, ht, hta⟩
      subst hta
      rcases hbind t ht with ⟨b1, iss1, hl1, hf1, hn1, hs1, _, _⟩
      rcases hall2 t ht with ⟨iss2, hf2, hl2⟩
      rw [hfind2, hf1] at hf2
      have hi2 : updOf (pass2 tasks (pass1 ys cm tasks tasks [] remote next₀).1 tasks) iss1
          = iss2 := Option.some.inj hf2
      have hnum2 : iss2.number = b1.number := by rw [← hi2, updOf_number, hn1]
      have hst2 : iss2.state = b1.state := by rw [← hi2, updOf_state, hs1]
      rw [hl1, hl2]
      show some (⟨b1.number, b1.state⟩ : IssueRef) = some ⟨iss2.number, iss2.state⟩
      rw [hnum2, hst2]
    · have h1 := pass1_lookup_frozen ys cm tasks tasks [] remote next₀ a hmem
      have h2 := pass1_lookup_frozen ys cm tasks tasks []
        (runSync ys cm tasks remote next₀).2 next₁ a hmem
      rw [h1, h2]
  have hus2 : (runSync ys cm tasks (runSync ys cm tasks remote next₀).2 next₁).1 =
      pass2 tasks
        (pass1 ys cm tasks tasks [] (runSync ys cm tasks remote next₀).2 next₁).1
        tasks := rfl
  rw [hus2, pass2_eq_filterMap]
  refine List.filterMap_eq_nil_iff.mpr ?_
  intro t ht
  rcases hall2 t ht with ⟨iss2, hf2, hl2⟩
  rcases hbind t ht with ⟨b1, iss1, hl1, hf1, hn1, hs1, hfb1, hexp1⟩
  rw [hfind2, hf1] at hf2
  have hi2 : updOf (pass2 tasks (pass1 ys cm tasks tasks [] remote next₀).1 tasks) iss1
      = iss2 := Option.some.inj hf2
  rw [pass2F_some tasks _ t _ hl2]
  have hcongr : pass2Body tasks
      (pass1 ys cm tasks tasks [] (runSync ys cm tasks remote next₀).2 next₁).1 t
        ⟨iss2.number, iss2.state, iss2.body, buildIssueBody ys cm tasks t⟩ =
      pass2Body tasks (pass1 ys cm tasks tasks [] remote next₀).1 t b1 := by
    refine pass2Body_congr tasks _ _ t _ b1 ?_ ?_
    · exact hexp1.symm
    · intro a ; exact (hagree a).symm
  have hcond : pass2Body tasks
      (pass1 ys cm tasks tasks [] (runSync ys cm tasks remote next₀).2 next₁).1 t
        ⟨iss2.number, iss2.state, iss2.body, buildIssueBody ys cm tasks t⟩ =
      (⟨iss2.number, iss2.state, iss2.body, buildIssueBody ys cm tasks t⟩ :
        Bound).fetchedBody := by
    rw [hcongr]
    show pass2Body tasks (pass1 ys cm tasks tasks [] remote next₀).1 t b1 = iss2.body
    by_cases he : pass2Body tasks (pass1 ys cm tasks tasks [] remote next₀).1 t b1 =
        b1.fetchedBody
    · have hnone : (pass2 tasks (pass1 ys cm tasks tasks [] remote next₀).1 tasks).find?
          (fun p => p.1 == iss1.number) = none := by
        apply find?_of_fst_not_mem
        intro hmemn
        rcases List.mem_map.mp hmemn with ⟨p, hp, hp1⟩
        rcases pass2_mem tasks _ tasks p hp with ⟨t2, ht2, b2, hl2', hpe2, hne2⟩
        have hx : p.1 = b2.number := congrArg Prod.fst hpe2
        have hpn2 : b2.number = b1.number := by rw [← hx, hp1, hn1]
        have ht12 : t2 = t := hinj t2 ht2 t ht b2 b1 hl2' hl1 hpn2
        subst ht12
        rw [hl1] at hl2'
        have hbb2 : b1 = b2 := Option.some.inj hl2'
        rw [← hbb2] at hne2
        exact hne2 he
      have hupd : updOf (pass2 tasks (pass1 ys cm tasks tasks [] remote next₀).1 tasks) iss1
          = iss1 := by rw [updOf, hnone]
      rw [he, ← hi2, hupd, hfb1]
    · have hmem1 := pass2_mem_intro tasks (pass1 ys cm tasks tasks [] remote next₀).1 tasks
        t ht b1 hl1 he
      have hfsome : (pass2 tasks (pass1 ys cm tasks tasks [] remote next₀).1 tasks).find?
          (fun p => p.1 == iss1.number) =
          some (b1.number,
            pass2Body tasks (pass1 ys cm tasks tasks [] remote next₀).1 t b1) := by
        rw [hn1]
        exact find?_of_fst_nodup b1.number _ _ hndup hmem1
      have hupd : (updOf (pass2 tasks (pass1 ys cm tasks tasks [] remote next₀).1 tasks)
          iss1).body =
          pass2Body tasks (pass1 ys cm tasks tasks [] remote next₀).1 t b1 := by
        rw [updOf, hfsome]
      rw [← hi2, hupd]
  rw [if_pos hcond]

/-- C2: in the sync engine's second (linking) pass, a remote issue-update
call is issued for a task's issue if and only if the re-rendered body
differs byte-for-byte from that issue's last-fetched body; consequently a
second run of the engine over the unchanged task graph issues zero remote
update calls.  (Hypotheses: task ids and task titles are unique per run, and
remote issue numbers are unique and below the tracker's next fresh number —
the data model's invariants.) -/
theorem C2_sync_engine (ys : TaskMeta → String) (cm : Int → Option Int)
    (tasks : List STask) (remote : List RIssue) (next₀ : Int)
    (htitles : (tasks.map STask.title).Nodup)
    (hids : (tasks.map STask.id).Nodup)
    (hnums : (remote.map RIssue.number).Nodup)
    (hfresh : ∀ i ∈ remote, i.number < next₀) :
    (∀ t ∈ tasks, ∃ b,
      lookupId (pass1 ys cm tasks tasks [] remote next₀).1 t.id = some b ∧
      ((∃ s, (b.number, s) ∈ (runSync ys cm tasks remote next₀).1) ↔
        pass2Body tasks (pass1 ys cm tasks tasks [] remote next₀).1 t b ≠
          b.fetchedBody)) ∧
    (∀ next₁,
      (runSync ys cm tasks (runSync ys cm tasks remote next₀).2 next₁).1 = []) := by
  have hus : (runSync ys cm tasks remote next₀).1 =
      pass2 tasks (pass1 ys cm tasks tasks [] remote next₀).1 tasks := rfl
  constructor
  · intro t ht
    rcases pass1_bind_spec ys cm tasks tasks [] remote next₀ hids t ht with
      ⟨b, iss, hl, hf, hn, hs, hfb, hexp⟩
    refine ⟨b, hl, ?_, ?_⟩
    · rintro ⟨s, hsmem⟩
      rw [hus] at hsmem
      rcases pass2_mem tasks _ tasks _ hsmem with ⟨t', ht', b', hl', hpe, hne⟩
      have hn' : b'.number = b.number := (congrArg Prod.fst hpe).symm
      have htt : t' = t := run1_bound_inj ys cm tasks remote next₀ htitles hids hnums
        hfresh t' ht' t ht b' b hl' hl hn'
      subst htt
      rw [hl] at hl'
      have hbb : b = b' := Option.some.inj hl'
      rw [← hbb] at hne
      exact hne
    · intro hne
      refine ⟨pass2Body tasks (pass1 ys cm tasks tasks [] remote next₀).1 t b, ?_⟩
      rw [hus]
      exact pass2_mem_intro tasks _ tasks t ht b hl hne
  · exact run1_idempotent ys cm tasks remote next₀ htitles hids hnums hfresh

def C2ys : TaskMeta → String := fun m => "id: " ++ toString m.id ++ "\n"

def C2cm : Int → Option Int := fun _ => none

def C2tasks : List STask :=
  [{ id := 1, title := "Task one" },
   { id := 2, title := "Task two", dependencies := some [1] }]

example : (runSync C2ys C2cm C2tasks [] 1).1 ≠ [] := by decide

example : (runSync C2ys C2cm C2tasks (runSync C2ys C2cm C2tasks [] 1).2 5).1 = [] := by
  decide

/-- A two-task instance (task 2 depends on task 1, empty remote issue list)
satisfies the uniqueness hypotheses, and the update-iff-differs and
second-run-is-silent conclusions hold for it. -/
theorem C2_sync_engine_witness :
    ((C2tasks.map STask.title).Nodup ∧ (C2tasks.map STask.id).Nodup ∧
      (([] : List RIssue).map RIssue.number).Nodup ∧
      (∀ i ∈ ([] : List RIssue), i.number < 1)) ∧
    ((∀ t ∈ C2tasks, ∃ b,
      lookupId (pass1 C2ys C2cm C2tasks C2tasks [] [] 1).1 t.id = some b ∧
      ((∃ s, (b.number, s) ∈ (runSync C2ys C2cm C2tasks [] 1).1) ↔
        pass2Body C2tasks (pass1 C2ys C2cm C2tasks C2tasks [] [] 1).1 t b ≠
          b.fetchedBody)) ∧
    (∀ next₁,
      (runSync C2ys C2cm C2tasks (runSync C2ys C2cm C2tasks [] 1).2 next₁).1 = [])) :=
  ⟨⟨by decide, by decide, by decide, by decide⟩,
    C2_sync_engine C2ys C2cm C2tasks [] 1 (by decide) (by decide) (by decide) (by decide)⟩

end TaskSync
